import Mathlib

/-!
Verification of the `sap` schema-aligned JSON parser (Go) against its
natural-language specification.  The Go sources are shallowly embedded:
strings are modelled as `List Char` (Go iterates runes; byte offsets are
modelled as rune offsets and noted where they could differ), Go `float64`
values are modelled as exact rationals (IEEE rounding is not modelled; none
of the verified properties depend on it), and Go maps are modelled as
association lists together with an explicit enumeration-order oracle where
the source ranges over a map.
-/

namespace SAP

/-- Named characters, so that quote/brace characters never appear as
character literals in code positions. -/
def dquote : Char := Char.ofNat 34

def squote : Char := Char.ofNat 39

def btick : Char := Char.ofNat 96

def bslash : Char := Char.ofNat 92

def lbrace : Char := Char.ofNat 123

def rbrace : Char := Char.ofNat 125

def lbrack : Char := Char.ofNat 91

def rbrack : Char := Char.ofNat 93

/-- ASCII whitespace, the cutset `" \t\n\r"` used by the Go sources with
`strings.TrimRight` and by `encoding/json`'s scanner. -/
def asciiWs (c : Char) : Bool :=
  c = ' ' || c = Char.ofNat 9 || c = Char.ofNat 10 || c = Char.ofNat 13

/-- Model of Go `unicode.IsSpace` (the White_Space property). -/
def goIsSpace (c : Char) : Bool :=
  asciiWs c || c = Char.ofNat 11 || c = Char.ofNat 12 ||
  c.val = 0x85 || c.val = 0xA0 || c.val = 0x1680 ||
  (0x2000 ≤ c.val && c.val ≤ 0x200A) ||
  c.val = 0x2028 || c.val = 0x2029 || c.val = 0x202F ||
  c.val = 0x205F || c.val = 0x3000

/-- Right-trim of the ASCII cutset, models `strings.TrimRight(s, " \t\n\r")`. -/
def trimRightWs (l : List Char) : List Char :=
  (l.reverse.dropWhile asciiWs).reverse

/-- Model of Go `strings.TrimSpace` (trims Unicode whitespace on both ends). -/
def goTrimSpace (l : List Char) : List Char :=
  ((l.dropWhile goIsSpace).reverse.dropWhile goIsSpace).reverse

/-- ASCII-whitespace trim on both ends (used to state claim C5, which speaks
of the ASCII-whitespace-trimmed content). -/
def asciiTrim (l : List Char) : List Char :=
  ((l.dropWhile asciiWs).reverse.dropWhile asciiWs).reverse

/-- Model of Go `strings.Split(s, sep)` for a single-character separator. -/
def goSplit (sep : Char) : List Char → List (List Char)
  | [] => [[]]
  | c :: rest =>
    if c = sep then [] :: goSplit sep rest
    else
      match goSplit sep rest with
      | h :: t => (c :: h) :: t
      | [] => [[c]]

/-- UTF-8 byte width of a scalar value; `goLen` models Go's `len()` on the
UTF-8 encoding of a string. -/
def utf8Width (c : Char) : Nat :=
  if c.val < 0x80 then 1 else if c.val < 0x800 then 2
  else if c.val < 0x10000 then 3 else 4

def goLen (l : List Char) : Nat := (l.map utf8Width).sum

/-! ## Score (types.go)

`Score` carries a flag map (modelled as an association list where insertion
overwrites the entry for an existing key in place) and a running total. -/

structure Score where
  flags : List (String × Int)
  total : Int
deriving DecidableEq, Repr

/-- Insert-or-overwrite on the flags association list; models assignment
into the Go map `s.flags[flag] = value`. -/
def upsertFlag : List (String × Int) → String → Int → List (String × Int)
  | [], f, v => [(f, v)]
  | (g, w) :: rest, f, v =>
    if g = f then (f, v) :: rest else (g, w) :: upsertFlag rest f v

/-- `Score.AddFlag` (types.go lines 27-33): the per-flag entry is assigned
(not accumulated), while the total is incremented by `value`. -/
def Score.AddFlag (s : Score) (flag : String) (value : Int) : Score :=
  { flags := upsertFlag s.flags flag value, total := s.total + value }

/-- `Score.Total` (types.go line 36). -/
def Score.Total (s : Score) : Int := s.total

/-- `Score.Less` (types.go line 41). -/
def Score.Less (s other : Score) : Bool := s.total < other.total

/-- The score a fresh coercion starts from (`&Score{flags: make(...)}`). -/
def Score.empty : Score := ⟨[], 0⟩

/-- Association lookup on the flags list (reading the Go map). -/
def lookupFlag : List (String × Int) → String → Option Int
  | [], _ => none
  | (g, w) :: rest, f => if g = f then some w else lookupFlag rest f

/-! ## Exact rationals with kernel-computable arithmetic

`QR` is a normalized fraction (non-negative reduced denominator); it
models Go `float64` values exactly (IEEE rounding is not modelled — no
claim depends on it).  All constructions go through `QR.mk0`, so equal
rationals are structurally equal. -/

structure QR where
  num : Int
  den : Nat
deriving DecidableEq, Repr

/-- Build the reduced fraction `n / d` (callers guarantee `d > 0`). -/
def QR.mk0 (n : Int) (d : Nat) : QR :=
  let g := Nat.gcd n.natAbs d
  if g = 0 then ⟨0, 1⟩ else ⟨Int.tdiv n g, d / g⟩

def QR.ofInt (n : Int) : QR := ⟨n, 1⟩

def QR.add (a b : QR) : QR := QR.mk0 (a.num * b.den + b.num * a.den) (a.den * b.den)

def QR.mul (a b : QR) : QR := QR.mk0 (a.num * b.num) (a.den * b.den)

def QR.neg (a : QR) : QR := ⟨-a.num, a.den⟩

/-- Division (caller guards the zero denominator; zero yields `0/1`). -/
def QR.div (a b : QR) : QR :=
  if b.num < 0 then QR.mk0 (-(a.num * b.den)) (a.den * b.num.natAbs)
  else QR.mk0 (a.num * b.den) (a.den * b.num.natAbs)

/-- `q * 10^e` for an integer exponent. -/
def QR.scale10 (q : QR) (e : Int) : QR :=
  if 0 ≤ e then QR.mul q ⟨(10 : Int) ^ e.toNat, 1⟩
  else QR.mk0 q.num (q.den * 10 ^ (-e).toNat)

/-- Truncation toward zero, the semantics of Go's `int64(f)` conversion. -/
def QR.trunc (q : QR) : Int := Int.tdiv q.num q.den

/-- Is the value integral (no fractional part)? -/
def QR.isInt (q : QR) : Bool := q.den = 1

/-! ## Number parsing (coercer.go `parseNumber`, Go `strconv.ParseFloat`)

Go `float64` results are modelled exactly: `GoF` is a finite rational, an
infinity, or NaN.  The model of `strconv.ParseFloat` covers the decimal
syntax and the `inf`/`infinity`/`nan` spellings; hexadecimal floats, digit
underscores, IEEE rounding and exponent-overflow (`ErrRange`) are not
modelled — no claim depends on them. -/

inductive GoF where
  | fin (q : QR)
  | inf (neg : Bool)
  | nan
deriving DecidableEq, Repr

def GoF.isZero : GoF → Bool
  | .fin q => q.num = 0
  | _ => false

/-- IEEE-style division for a nonzero denominator (the only use site checks
the denominator against zero first). -/
def GoF.div : GoF → GoF → GoF
  | .fin a, .fin b => .fin (a.div b)
  | .nan, _ => .nan
  | _, .nan => .nan
  | .inf _, .inf _ => .nan
  | .inf n, .fin b => .inf (xor n (decide (b.num < 0)))
  | .fin _, .inf _ => .fin ⟨0, 1⟩

def lowerAscii (c : Char) : Char :=
  if 'A' ≤ c && c ≤ 'Z' then Char.ofNat (c.toNat + 32) else c

def digitsVal (l : List Char) : Nat :=
  l.foldl (fun a c => 10 * a + (c.toNat - 48)) 0

/-- Model of `strconv.ParseFloat(s, 64)` on the full string `l` (must
consume all of `l`). -/
def goParseFloat (l : List Char) : Option GoF :=
  let signed : Bool × List Char :=
    match l with
    | c :: r => if c = '-' then (true, r) else if c = '+' then (false, r) else (false, l)
    | [] => (false, [])
  let neg := signed.1
  let l1 := signed.2
  let low := l1.map lowerAscii
  if low = "inf".data || low = "infinity".data then some (.inf neg)
  else if low = "nan".data then some .nan
  else
    let ip := l1.takeWhile Char.isDigit
    let r1 := l1.dropWhile Char.isDigit
    let fracPart : List Char × List Char :=
      match r1 with
      | c :: r => if c = '.' then (r.takeWhile Char.isDigit, r.dropWhile Char.isDigit) else ([], r1)
      | [] => ([], r1)
    let fp := fracPart.1
    let r2 := fracPart.2
    if ip.length = 0 && fp.length = 0 then none
    else
      let mant : QR := (QR.ofInt (digitsVal ip)).add (QR.mk0 (digitsVal fp) (10 ^ fp.length))
      let expPart : Option (Int × List Char) :=
        match r2 with
        | c :: r =>
          if c = 'e' || c = 'E' then
            let esigned : Bool × List Char :=
              match r with
              | d :: rr => if d = '-' then (true, rr) else if d = '+' then (false, rr) else (false, r)
              | [] => (false, [])
            let ed := esigned.2.takeWhile Char.isDigit
            let r3 := esigned.2.dropWhile Char.isDigit
            if ed.length = 0 then none
            else some ((if esigned.1 then -(digitsVal ed : Int) else (digitsVal ed : Int)), r3)
          else some (0, r2)
        | [] => some (0, [])
      match expPart with
      | none => none
      | some (e, rest) =>
        if rest = [] then
          some (.fin ((if neg then mant.neg else mant).scale10 e))
        else none

/-- `parseNumber` (coercer.go lines 367-388). -/
def parseNumber (l : List Char) : Option GoF :=
  let s0 := goTrimSpace l
  let s := (s0.filter (fun c => c ≠ '$')).filter (fun c => c ≠ ',')
  if s.contains '/' then
    match goSplit '/' s with
    | [p0, p1] =>
      match goParseFloat (goTrimSpace p0), goParseFloat (goTrimSpace p1) with
      | some a, some b => if b.isZero = false then some (a.div b) else goParseFloat s
      | _, _ => goParseFloat s
    | _ => goParseFloat s
  else goParseFloat s

/-- Modelled from claim C7's wording: strip `$` and `,` (no whitespace
trimming is mentioned); if the string contains exactly one `/` and both
sides (untrimmed) parse as floats with a nonzero denominator, return the
quotient, else the float parse of the stripped string. -/
def parseNumberClaim (l : List Char) : Option GoF :=
  let s := (l.filter (fun c => c ≠ '$')).filter (fun c => c ≠ ',')
  if s.count '/' = 1 then
    match goSplit '/' s with
    | [p0, p1] =>
      match goParseFloat p0, goParseFloat p1 with
      | some a, some b => if b.isZero = false then some (a.div b) else goParseFloat s
      | _, _ => goParseFloat s
    | _ => goParseFloat s
  else goParseFloat s

/-- Claim C7 as amended: additionally trim whitespace around the whole
string and around the two sides of a fraction, exactly as the code does. -/
def parseNumberClaimAmended (l : List Char) : Option GoF :=
  let s0 := goTrimSpace l
  let s := (s0.filter (fun c => c ≠ '$')).filter (fun c => c ≠ ',')
  if s.count '/' = 1 then
    match goSplit '/' s with
    | [p0, p1] =>
      match goParseFloat (goTrimSpace p0), goParseFloat (goTrimSpace p1) with
      | some a, some b => if b.isZero = false then some (a.div b) else goParseFloat s
      | _, _ => goParseFloat s
    | _ => goParseFloat s
  else goParseFloat s

/-! ## String normalizer (src/unnamed/part_000)

`strings.ToLower` / `unicode.IsLetter` are modelled on the Latin range the
accent table touches; characters outside the model behave as themselves /
as non-letters.  `goLen` models Go's byte-`len`. -/

/-- Model of Go `strings.ToLower` (simple case mapping) for ASCII and the
Latin-1 / Latin-Extended uppercase letters relevant to the accent table. -/
def goToLower (c : Char) : Char :=
  if 'A' ≤ c && c ≤ 'Z' then Char.ofNat (c.toNat + 32)
  else if 0xC0 ≤ c.val && c.val ≤ 0xDE && c.val ≠ 0xD7 then Char.ofNat (c.toNat + 32)
  else if c.val = 0x10C then Char.ofNat 0x10D
  else if c.val = 0x1EF2 then Char.ofNat 0x1EF3
  else c

/-- The accent replacement table of `normalizeString`. -/
def accentTable : List (Char × Char) :=
  [('á', 'a'), ('à', 'a'), ('ä', 'a'), ('â', 'a'), ('ã', 'a'), ('å', 'a'),
   ('é', 'e'), ('è', 'e'), ('ë', 'e'), ('ê', 'e'),
   ('í', 'i'), ('ì', 'i'), ('ï', 'i'), ('î', 'i'),
   ('ó', 'o'), ('ò', 'o'), ('ö', 'o'), ('ô', 'o'), ('õ', 'o'),
   ('ú', 'u'), ('ù', 'u'), ('ü', 'u'), ('û', 'u'),
   ('ý', 'y'), ('ỳ', 'y'), ('ÿ', 'y'),
   ('ç', 'c'), ('č', 'c'),
   ('ñ', 'n'),
   ('ß', 's'),
   ('æ', 'a'), ('œ', 'o')]

def lookupAccent : List (Char × Char) → Char → Option Char
  | [], _ => none
  | (a, b) :: rest, c => if a = c then some b else lookupAccent rest c

/-- Model of Go `unicode.IsLetter` restricted to ASCII plus the Latin
ranges used by the table (sufficient for every input this development
evaluates). -/
def goIsLetter (c : Char) : Bool :=
  (('a' ≤ c && c ≤ 'z') || ('A' ≤ c && c ≤ 'Z')) ||
  (0xC0 ≤ c.val && c.val ≤ 0x24F && c.val ≠ 0xD7 && c.val ≠ 0xF7) ||
  c.val = 0x1EF2 || c.val = 0x1EF3

def goIsDigit (c : Char) : Bool := c.isDigit

/-- `normalizeString` (part_000 lines 126-154): lowercase, fold accents,
keep letters/digits/underscore/space, drop the rest. -/
def normalizeString (l : List Char) : List Char :=
  let low := l.map goToLower
  low.filterMap (fun ch =>
    match lookupAccent accentTable ch with
    | some r => some r
    | none =>
      if goIsLetter ch || goIsDigit ch || ch = '_' || ch = ' ' then some ch
      else none)

/-- One inner row step of the Levenshtein DP (part_000 lines 185-199):
walks the second string, carrying the diagonal entry, the rest of the
previous row, and the entry to the left. -/
def levRowAux (c1 : Char) : List Char → Nat → List Nat → Nat → List Nat
  | [], _, _, _ => []
  | _, _, [], _ => []
  | c2 :: cs, diag, pUp :: pRest, left =>
    let cost := if c1 ≠ c2 then 1 else 0
    let cur := Nat.min (Nat.min (pUp + 1) (left + 1)) (diag + cost)
    cur :: levRowAux c1 cs pUp pRest cur

/-- `levenshteinDistance` (part_000 lines 157-202), row-by-row DP. -/
def levenshteinDistance (l1 l2 : List Char) : Nat :=
  if l1.length = 0 then l2.length
  else if l2.length = 0 then l1.length
  else
    let row0 := List.range (l2.length + 1)
    let lastRow := l1.enum.foldl
      (fun prev ic =>
        match prev with
        | p0 :: pRest => (ic.1 + 1) :: levRowAux ic.2 l2 p0 pRest (ic.1 + 1)
        | [] => []) row0
    lastRow.getLastD 0

/-- `stringDistance` (part_000 lines 117-123). -/
def stringDistance (s1 s2 : List Char) : Nat :=
  levenshteinDistance (normalizeString s1) (normalizeString s2)

/-- The strict-improvement fold of `fuzzyMatchEnum`: `best := results[0]`,
then `if r.score < best.score { best = r }` over the whole list. -/
def firstMin (acc : List Char × Nat) : List (List Char × Nat) → List Char × Nat
  | [] => acc
  | r :: rs => firstMin (if r.2 < acc.2 then r else acc) rs

/-- `fuzzyMatchEnum` (part_000 lines 84-114); the empty list models Go's
empty string meaning "no match". -/
def fuzzyMatchEnum (input : List Char) (enumValues : List (List Char)) : List Char :=
  let results := enumValues.map (fun ev => (ev, stringDistance input ev))
  match results with
  | [] => []
  | r0 :: rest =>
    let best := firstMin r0 (r0 :: rest)
    let threshold := (goLen input + goLen best.1) / 2
    if best.2 ≤ threshold then best.1 else []

/-! ## Generic JSON values and a model of `encoding/json.Unmarshal`

`json.Unmarshal(data, &v)` with `v interface{}` yields `nil`, `bool`,
`float64`, `string`, `[]interface\x7b\x7d` or `map[string]interface\x7b\x7d`.
`JValue` is that value universe (numbers exact, see `GoF` remarks).  The
strict parser below models the scanner: ASCII whitespace, RFC 8259 value
grammar, string escapes (`\uXXXX` incl. surrogate pairs, unpaired
surrogates become U+FFFD), rejection of raw control characters, trailing
non-whitespace, leading zeros, and invalid escapes.  Objects are
association lists in first-occurrence order where a duplicate key
overwrites the value (Go map assignment). -/

inductive JValue where
  | null
  | bool (b : Bool)
  | num (q : QR)
  | str (s : List Char)
  | arr (elems : List JValue)
  | obj (fields : List (List Char × JValue))

/-- Insert a pair parsed EARLIER than the pairs of `rest`: since later
duplicates overwrite, the value in `rest` wins, and the key keeps its
first-occurrence position. -/
def upsertPair (k : List Char) (v : JValue) (rest : List (List Char × JValue)) :
    List (List Char × JValue) :=
  if rest.any (fun p => p.1 = k) then rest else (k, v) :: rest

def skipWs (l : List Char) : List Char := l.dropWhile asciiWs

def hexVal (c : Char) : Option Nat :=
  if c.isDigit then some (c.toNat - 48)
  else if 'a' ≤ c && c ≤ 'f' then some (c.toNat - 87)
  else if 'A' ≤ c && c ≤ 'F' then some (c.toNat - 55)
  else none

/-- Decode a string body up to the closing quote.  Returns the decoded
content and the remaining input after the closing quote.  The fuel only
serves termination (the surrogate-pair lookahead defeats structural
recursion on the list); every recursive call consumes at least one input
character, so `length + 1` fuel at the wrapper is always sufficient. -/
def parseStringBodyF : Nat → List Char → Option (List Char × List Char)
  | 0, _ => none
  | _ + 1, [] => none
  | n + 1, c :: r =>
    if c = dquote then some ([], r)
    else if c = bslash then
      match r with
      | [] => none
      | e :: r2 =>
        if e = dquote then (parseStringBodyF n r2).map (fun p => (dquote :: p.1, p.2))
        else if e = bslash then (parseStringBodyF n r2).map (fun p => (bslash :: p.1, p.2))
        else if e = '/' then (parseStringBodyF n r2).map (fun p => ('/' :: p.1, p.2))
        else if e = 'b' then (parseStringBodyF n r2).map (fun p => (Char.ofNat 8 :: p.1, p.2))
        else if e = 'f' then (parseStringBodyF n r2).map (fun p => (Char.ofNat 12 :: p.1, p.2))
        else if e = 'n' then (parseStringBodyF n r2).map (fun p => (Char.ofNat 10 :: p.1, p.2))
        else if e = 'r' then (parseStringBodyF n r2).map (fun p => (Char.ofNat 13 :: p.1, p.2))
        else if e = 't' then (parseStringBodyF n r2).map (fun p => (Char.ofNat 9 :: p.1, p.2))
        else if e = 'u' then
          match r2 with
          | h1 :: h2 :: h3 :: h4 :: r3 =>
            match hexVal h1, hexVal h2, hexVal h3, hexVal h4 with
            | some a, some b2, some c2, some d =>
              let cp := ((a * 16 + b2) * 16 + c2) * 16 + d
              if 0xD800 ≤ cp && cp ≤ 0xDBFF then
                match r3 with
                | e2 :: u2 :: k1 :: k2 :: k3 :: k4 :: r4 =>
                  if e2 = bslash && u2 = 'u' then
                    match hexVal k1, hexVal k2, hexVal k3, hexVal k4 with
                    | some a2, some b3, some c3, some d2 =>
                      let lo := ((a2 * 16 + b3) * 16 + c3) * 16 + d2
                      if 0xDC00 ≤ lo && lo ≤ 0xDFFF then
                        let comb := 0x10000 + (cp - 0xD800) * 0x400 + (lo - 0xDC00)
                        (parseStringBodyF n r4).map (fun p => (Char.ofNat comb :: p.1, p.2))
                      else
                        (parseStringBodyF n r3).map (fun p => (Char.ofNat 0xFFFD :: p.1, p.2))
                    | _, _, _, _ =>
                      (parseStringBodyF n r3).map (fun p => (Char.ofNat 0xFFFD :: p.1, p.2))
                  else (parseStringBodyF n r3).map (fun p => (Char.ofNat 0xFFFD :: p.1, p.2))
                | _ => (parseStringBodyF n r3).map (fun p => (Char.ofNat 0xFFFD :: p.1, p.2))
              else if 0xDC00 ≤ cp && cp ≤ 0xDFFF then
                (parseStringBodyF n r3).map (fun p => (Char.ofNat 0xFFFD :: p.1, p.2))
              else (parseStringBodyF n r3).map (fun p => (Char.ofNat cp :: p.1, p.2))
            | _, _, _, _ => none
          | _ => none
        else none
    else if c.val < 0x20 then none
    else (parseStringBodyF n r).map (fun p => (c :: p.1, p.2))

def parseStringBody (l : List Char) : Option (List Char × List Char) :=
  parseStringBodyF (l.length + 1) l

/-- Parse a JSON number literal (strict grammar: `-?int frac? exp?`,
`int = 0 | [1-9][0-9]*`). -/
def parseNumLit (l : List Char) : Option (QR × List Char) :=
  let signed : Bool × List Char :=
    match l with
    | c :: r => if c = '-' then (true, r) else (false, l)
    | [] => (false, [])
  let neg := signed.1
  let l1 := signed.2
  let intPart : Option (List Char × List Char) :=
    match l1 with
    | c :: r =>
      if c = '0' then some ([c], r)
      else if c.isDigit then some (c :: r.takeWhile Char.isDigit, r.dropWhile Char.isDigit)
      else none
    | [] => none
  match intPart with
  | none => none
  | some (ip, r1) =>
    let fracPart : Option (List Char × List Char) :=
      match r1 with
      | c :: r =>
        if c = '.' then
          let fd := r.takeWhile Char.isDigit
          if fd.length = 0 then none else some (fd, r.dropWhile Char.isDigit)
        else some ([], r1)
      | [] => some ([], [])
    match fracPart with
    | none => none
    | some (fp, r2) =>
      let expPart : Option (Int × List Char) :=
        match r2 with
        | c :: r =>
          if c = 'e' || c = 'E' then
            let esigned : Bool × List Char :=
              match r with
              | d :: rr => if d = '-' then (true, rr) else if d = '+' then (false, rr) else (false, r)
              | [] => (false, [])
            let ed := esigned.2.takeWhile Char.isDigit
            if ed.length = 0 then none
            else some ((if esigned.1 then -(digitsVal ed : Int) else (digitsVal ed : Int)),
                       esigned.2.dropWhile Char.isDigit)
          else some (0, r2)
        | [] => some (0, [])
      match expPart with
      | none => none
      | some (e, r3) =>
        let mant : QR := (QR.ofInt (digitsVal ip)).add (QR.mk0 (digitsVal fp) (10 ^ fp.length))
        some ((if neg then mant.neg else mant).scale10 e, r3)

/-- The sign stage of `parseNumLit`. -/
def numSign (l : List Char) : Bool × List Char :=
  match l with
  | c :: r => if c = '-' then (true, r) else (false, l)
  | [] => (false, [])

/-- The integer-part stage of `parseNumLit`. -/
def numInt : List Char → Option (List Char × List Char)
  | c :: r =>
    if c = '0' then some ([c], r)
    else if c.isDigit then some (c :: r.takeWhile Char.isDigit, r.dropWhile Char.isDigit)
    else none
  | [] => none

/-- The fraction stage of `parseNumLit`. -/
def numFrac (r1 : List Char) : Option (List Char × List Char) :=
  match r1 with
  | c :: r =>
    if c = '.' then
      let fd := r.takeWhile Char.isDigit
      if fd.length = 0 then none else some (fd, r.dropWhile Char.isDigit)
    else some ([], r1)
  | [] => some ([], [])

/-- The exponent stage of `parseNumLit`. -/
def numExp (r2 : List Char) : Option (Int × List Char) :=
  match r2 with
  | c :: r =>
    if c = 'e' || c = 'E' then
      let esigned : Bool × List Char :=
        match r with
        | d :: rr => if d = '-' then (true, rr) else if d = '+' then (false, rr) else (false, r)
        | [] => (false, [])
      let ed := esigned.2.takeWhile Char.isDigit
      if ed.length = 0 then none
      else some ((if esigned.1 then -(digitsVal ed : Int) else (digitsVal ed : Int)),
                 esigned.2.dropWhile Char.isDigit)
    else some (0, r2)
  | [] => some (0, [])

/-- Parse mode: a single value, the elements of an array after `[`, or the
members of an object after `\x7b` (in both cases positioned at the first
element, whitespace already skipped, the non-empty case). -/
inductive PMode where
  | val
  | elems
  | members

inductive PRes where
  | v (x : JValue)
  | es (xs : List JValue)
  | ms (xs : List (List Char × JValue))

/-- The fueled recursive scanner.  Fuel decreases at every recursive call;
`jsonUnmarshal` supplies fuel larger than any possible recursion depth. -/
def parseJ : Nat → PMode → List Char → Option (PRes × List Char)
  | 0, _, _ => none
  | n + 1, .val, l =>
    match l with
    | [] => none
    | c :: r =>
      if c = lbrace then
        let r1 := skipWs r
        match r1 with
        | [] => none
        | c1 :: r2 =>
          if c1 = rbrace then some (.v (.obj []), r2)
          else
            match parseJ n .members r1 with
            | some (.ms pairs, rest) => some (.v (.obj pairs), rest)
            | _ => none
      else if c = lbrack then
        let r1 := skipWs r
        match r1 with
        | [] => none
        | c1 :: r2 =>
          if c1 = rbrack then some (.v (.arr []), r2)
          else
            match parseJ n .elems r1 with
            | some (.es xs, rest) => some (.v (.arr xs), rest)
            | _ => none
      else if c = dquote then
        match parseStringBody r with
        | some (s, rest) => some (.v (.str s), rest)
        | none => none
      else if c = 't' then
        match r with
        | 'r' :: 'u' :: 'e' :: rest => some (.v (.bool true), rest)
        | _ => none
      else if c = 'f' then
        match r with
        | 'a' :: 'l' :: 's' :: 'e' :: rest => some (.v (.bool false), rest)
        | _ => none
      else if c = 'n' then
        match r with
        | 'u' :: 'l' :: 'l' :: rest => some (.v .null, rest)
        | _ => none
      else
        match parseNumLit l with
        | some (q, rest) => some (.v (.num q), rest)
        | none => none
  | n + 1, .elems, l =>
    match parseJ n .val l with
    | some (.v v, r) =>
      (match skipWs r with
       | c :: r2 =>
         if c = ',' then
           match parseJ n .elems (skipWs r2) with
           | some (.es xs, rest) => some (.es (v :: xs), rest)
           | _ => none
         else if c = rbrack then some (.es [v], r2)
         else none
       | [] => none)
    | _ => none
  | n + 1, .members, l =>
    match l with
    | c :: r =>
      if c = dquote then
        match parseStringBody r with
        | some (k, r2) =>
          (match skipWs r2 with
           | c2 :: r3 =>
             if c2 = ':' then
               match parseJ n .val (skipWs r3) with
               | some (.v v, r4) =>
                 (match skipWs r4 with
                  | c4 :: r5 =>
                    if c4 = ',' then
                      match parseJ n .members (skipWs r5) with
                      | some (.ms pairs, rest) => some (.ms (upsertPair k v pairs), rest)
                      | _ => none
                    else if c4 = rbrace then some (.ms [(k, v)], r5)
                    else none
                  | [] => none)
               | _ => none
             else none
           | [] => none)
        | none => none
      else none
    | [] => none

/-- Model of `json.Unmarshal(data, &v)` for `v interface{}`: skip leading
whitespace, parse one value, allow only trailing whitespace. -/
def jsonUnmarshal (s : List Char) : Option JValue :=
  match parseJ (2 * s.length + 4) .val (skipWs s) with
  | some (.v v, rest) => if skipWs rest = [] then some v else none
  | _ => none

/-- `isValidJSON` (extractor.go lines 147-150). -/
def isValidJSON (s : List Char) : Bool := (jsonUnmarshal s).isSome

/-! ## The JSON repairer (`FixJSON`, sap_test.go lines 517-817)

A character-by-character rewriter.  `FixJSON` always returns a string (its
Go error result is always nil).  The bracket stack is modelled with its
top at the head.  The comment cases manipulate the scan position, so the
main loop recurses on the remaining input with fuel (each step consumes at
least one character, so `length + 1` fuel suffices). -/

structure FixState where
  result : List Char
  inString : Bool
  stringQuoteChar : Char
  stringEscaped : Bool
  lastNonWhitespace : Char
  bracketStack : List Char

def initFixState : FixState :=
  ⟨[], false, Char.ofNat 0, false, Char.ofNat 0, []⟩

/-- `startsWithQuote` (sap_test.go lines 800-805). -/
def startsWithQuote : List Char → Bool
  | [] => false
  | c :: _ => c = dquote || c = squote || c = btick

/-- `isReservedWord` (sap_test.go lines 807-817). -/
def isReservedWord (s : List Char) : Bool :=
  let lower := (goTrimSpace s).map goToLower
  if lower = "true".data || lower = "false".data || lower = "null".data then true
  else (parseNumber s).isSome

/-- Scan back (on the reversed trimmed buffer) for the last occurrence of
one of the structural characters; returns `(before-including-char, after)`
when found. -/
def splitAtLastStructural (p : Char → Bool) (s : List Char) :
    Option (List Char × List Char) :=
  let rev := s.reverse
  let afterRev := rev.takeWhile (fun c => !(p c))
  match rev.dropWhile (fun c => !(p c)) with
  | c :: beforeRev => some ((c :: beforeRev).reverse, afterRev.reverse)
  | [] => none

/-- `quoteUnquotedKey` (sap_test.go lines 671-700). -/
def quoteUnquotedKey (res : List Char) : List Char :=
  let s := trimRightWs res
  match splitAtLastStructural (fun c => c = lbrace || c = ',') s with
  | some (before, after) =>
    if after ≠ [] then
      let unq := goTrimSpace after
      if unq ≠ [] && !startsWithQuote unq then
        before ++ (' ' :: dquote :: unq) ++ [dquote]
      else res
    else res
  | none => res

/-- `quoteUnquotedValue` (sap_test.go lines 702-731). -/
def quoteUnquotedValue (res : List Char) : List Char :=
  let s := trimRightWs res
  match splitAtLastStructural (fun c => c = ':' || c = lbrack || c = ',') s with
  | some (before, after) =>
    if after ≠ [] then
      let unq := goTrimSpace after
      if unq ≠ [] && !startsWithQuote unq && !isReservedWord unq then
        before ++ (' ' :: dquote :: unq) ++ [dquote]
      else res
    else res
  | none => res

/-- `removeTrailingComma` (sap_test.go lines 754-763). -/
def removeTrailingComma (res : List Char) : List Char :=
  let s := trimRightWs res
  if s.getLast? = some ',' then s.dropLast else res

/-- `handleStringChar` (sap_test.go lines 560-582). -/
def handleStringChar (st : FixState) (ch : Char) : FixState :=
  if st.stringEscaped then
    { st with result := st.result ++ [ch], stringEscaped := false }
  else if ch = bslash then
    { st with result := st.result ++ [ch], stringEscaped := true }
  else if ch = st.stringQuoteChar then
    { st with result := st.result ++ [dquote], inString := false,
              lastNonWhitespace := dquote }
  else { st with result := st.result ++ [ch] }

/-- `handleOpenBracket` (sap_test.go lines 765-769). -/
def handleOpenBracket (st : FixState) (ch : Char) : FixState :=
  { st with result := st.result ++ [ch], bracketStack := ch :: st.bracketStack,
            lastNonWhitespace := ch }

/-- `handleCloseBracket` (sap_test.go lines 771-798). -/
def handleCloseBracket (st : FixState) (ch : Char) : FixState :=
  match st.bracketStack with
  | [] => st
  | lastOpen :: stackRest =>
    let expectedClose :=
      if lastOpen = lbrace then rbrace
      else if lastOpen = lbrack then rbrack
      else Char.ofNat 0
    if ch = expectedClose then
      let res1 := if expectedClose = rbrace then quoteUnquotedValue st.result else st.result
      let res2 := removeTrailingComma res1
      { st with result := res2 ++ [ch], bracketStack := stackRest,
                lastNonWhitespace := ch }
    else st

/-- `handleNonStringChar` (sap_test.go lines 584-669), except the two
comment forms, which the main loop handles because they advance the scan
position.  A lone `/` or `*` falls into the comment `case` and emits
nothing. -/
def handleNonStringChar (st : FixState) (ch : Char) : FixState :=
  if ch = dquote then
    { st with result := st.result ++ [dquote], inString := true,
              stringQuoteChar := dquote, lastNonWhitespace := dquote }
  else if ch = squote then
    { st with result := st.result ++ [dquote], inString := true,
              stringQuoteChar := squote, lastNonWhitespace := dquote }
  else if ch = btick then
    { st with result := st.result ++ [dquote], inString := true,
              stringQuoteChar := btick, lastNonWhitespace := dquote }
  else if ch = lbrace || ch = lbrack then handleOpenBracket st ch
  else if ch = rbrace || ch = rbrack then handleCloseBracket st ch
  else if ch = ':' then
    { st with result := quoteUnquotedKey st.result ++ [ch], lastNonWhitespace := ch }
  else if ch = ',' then
    let res :=
      if st.lastNonWhitespace ≠ lbrace && st.lastNonWhitespace ≠ lbrack &&
         st.lastNonWhitespace ≠ ',' && st.lastNonWhitespace ≠ dquote then
        quoteUnquotedValue st.result
      else st.result
    { st with result := res ++ [ch], lastNonWhitespace := ch }
  else if asciiWs ch then
    if st.result.length > 0 && (trimRightWs st.result).getLast? ≠ some ' ' then
      if st.lastNonWhitespace ≠ lbrace && st.lastNonWhitespace ≠ lbrack &&
         st.lastNonWhitespace ≠ ',' && st.lastNonWhitespace ≠ ':' &&
         !goIsSpace st.lastNonWhitespace then
        { st with result := st.result ++ [' '] }
      else st
    else st
  else if ch = '/' || ch = '*' then st
  else if goIsLetter ch || goIsDigit ch || ch = '-' || ch = '+' || ch = '.' || ch = '_' then
    { st with result := st.result ++ [ch],
              lastNonWhitespace := if !goIsSpace ch then ch else st.lastNonWhitespace }
  else if ch = 'n' || ch = 't' || ch = 'f' || ch = 'e' || ch = 'E' then
    { st with result := st.result ++ [ch], lastNonWhitespace := ch }
  else st

/-- Skip a `//` line comment: the Go loop stops at the newline and the
outer `p.pos++` then steps past it. -/
def dropLineComment (l : List Char) : List Char :=
  match l.dropWhile (fun c => c ≠ Char.ofNat 10) with
  | _ :: r => r
  | [] => []

/-- Skip a block comment, scanning from the `*` that follows `/`; mirrors
the Go loop (`for pos+1 < len`) including its end-of-input behavior. -/
def dropBlockComment : List Char → List Char
  | a :: b :: r => if a = '*' && b = '/' then r else dropBlockComment (b :: r)
  | _ => []

/-- The main scan loop of `fixingParserState.parse` (sap_test.go lines
541-552). -/
def fixLoop : Nat → FixState → List Char → FixState
  | 0, st, _ => st
  | _ + 1, st, [] => st
  | n + 1, st, ch :: rest =>
    if st.inString then fixLoop n (handleStringChar st ch) rest
    else if ch = '/' then
      match rest with
      | c2 :: r2 =>
        if c2 = '/' then fixLoop n st (dropLineComment r2)
        else if c2 = '*' then fixLoop n st (dropBlockComment (c2 :: r2))
        else fixLoop n (handleNonStringChar st ch) rest
      | [] => fixLoop n (handleNonStringChar st ch) rest
    else fixLoop n (handleNonStringChar st ch) rest

/-- `closeUnclosedStructures` (sap_test.go lines 733-752).  The dead
`lastOpen == '\x7d'` comparison from the source (the stack only ever holds
openers) is kept literally. -/
def closeUnclosed : List Char → List Char → List Char
  | [], res => res
  | lastOpen :: rest, res =>
    let res1 := if lastOpen = rbrace then quoteUnquotedValue res else res
    if lastOpen = lbrace then closeUnclosed rest (removeTrailingComma res1 ++ [rbrace])
    else if lastOpen = lbrack then closeUnclosed rest (removeTrailingComma res1 ++ [rbrack])
    else closeUnclosed rest res1

/-- `FixJSON` (sap_test.go lines 517-558); the Go error result is always
nil, so the model returns the output string directly. -/
def fixJSON (input : List Char) : List Char :=
  let final := fixLoop (input.length + 1) initFixState input
  closeUnclosed final.bracketStack final.result

/-! ## Candidate extraction (extractor.go)

Offsets are rune offsets into the input (Go records byte offsets; they
agree on ASCII input and the distinction carries no weight in any claim).
The fenced-block probe models the Go regexp
` ```(?:json|JSON)?\s*\n([\s\S]*?)``` ` under RE2 leftmost-first
semantics: alternatives in order, greedy `\s*` then a mandatory newline,
minimal interior up to the next fence. -/

structure JSONCandidate where
  JSON : List Char
  Index : Nat
deriving DecidableEq, Repr

/-- First index at which the needle occurs (models `strings.Index`; the
only call site passes a needle that does occur, the not-found case returns
0 rather than Go's -1). -/
def strIndexOf : List Char → List Char → Nat
  | h, n =>
    if n.isPrefixOf h then 0
    else
      match h with
      | [] => 0
      | _ :: t => 1 + strIndexOf t n

/-- RE2 `\s` character class. -/
def reWs (c : Char) : Bool :=
  c = ' ' || c = Char.ofNat 9 || c = Char.ofNat 10 || c = Char.ofNat 12 ||
  c = Char.ofNat 13

def isFence : List Char → Bool
  | a :: b :: c :: _ => a = btick && b = btick && c = btick
  | _ => false

/-- Index of the first triple-backtick fence. -/
def fenceIdx : List Char → Option Nat
  | [] => none
  | c :: r => if isFence (c :: r) then some 0 else (fenceIdx r).map (· + 1)

/-- Match `\s*\n` greedily: the offset just past the last newline inside
the leading whitespace run, if any. -/
def wsNewlineOff (l : List Char) : Option Nat :=
  let run := l.takeWhile reWs
  match run.reverse.findIdx? (fun c => c = Char.ofNat 10) with
  | some j => some (run.length - j)
  | none => none

/-- Try to complete a fenced-block match at a position starting with
three backticks: returns (group start, interior, match end), offsets
relative to this position. -/
def tryFenceAt (l : List Char) : Option (Nat × List Char × Nat) :=
  let l3 := l.drop 3
  let tryTag : Nat → Option (Nat × List Char × Nat) := fun tagLen =>
    let after := l3.drop tagLen
    match wsNewlineOff after with
    | some off =>
      let body := after.drop off
      match fenceIdx body with
      | some k => some (3 + tagLen + off, body.take k, 3 + tagLen + off + k + 3)
      | none => none
    | none => none
  if l3.take 4 = "json".data then
    match tryTag 4 with
    | some r => some r
    | none => tryTag 0
  else if l3.take 4 = "JSON".data then
    match tryTag 4 with
    | some r => some r
    | none => tryTag 0
  else tryTag 0

/-- The `FindAllStringSubmatchIndex` loop of `extractMarkdownJSON`
(extractor.go lines 50-71): candidates from fenced blocks, trimmed,
non-empty, in source order. -/
def extractMarkdownLoop : Nat → List Char → Nat → List JSONCandidate
  | 0, _, _ => []
  | _ + 1, [], _ => []
  | n + 1, c :: r, pos =>
    if isFence (c :: r) then
      match tryFenceAt (c :: r) with
      | some (gs, interior, me) =>
        let json := goTrimSpace interior
        (if json ≠ [] then [⟨json, pos + gs⟩] else []) ++
          extractMarkdownLoop n ((c :: r).drop me) (pos + me)
      | none => extractMarkdownLoop n r (pos + 1)
    else extractMarkdownLoop n r (pos + 1)

def extractMarkdownJSON (input : List Char) : List JSONCandidate :=
  extractMarkdownLoop (input.length + 1) input 0

/-- The inner balanced scan of `findJSONBlocks` (extractor.go lines
96-130): from just after an opener, track depth with a two-state string
scanner; returns how many characters were consumed when the depth
returns to zero. -/
def scanBal (openChar closeChar : Char) :
    List Char → Nat → Bool → Bool → Option Nat
  | [], _, _, _ => none
  | ch :: r, depth, inStr, esc =>
    if esc then (scanBal openChar closeChar r depth inStr false).map (· + 1)
    else if ch = bslash then (scanBal openChar closeChar r depth inStr true).map (· + 1)
    else if ch = dquote then (scanBal openChar closeChar r depth (!inStr) false).map (· + 1)
    else if !inStr && ch = openChar then
      (scanBal openChar closeChar r (depth + 1) inStr esc).map (· + 1)
    else if !inStr && ch = closeChar then
      if depth = 1 then some 1
      else (scanBal openChar closeChar r (depth - 1) inStr esc).map (· + 1)
    else (scanBal openChar closeChar r depth inStr esc).map (· + 1)

/-- The outer sweep of `findJSONBlocks` (extractor.go lines 88-144): every
opener starts its own scan, every balanced region yields a candidate. -/
def findJSONBlocksLoop (openChar closeChar : Char) : List Char → Nat → List JSONCandidate
  | [], _ => []
  | c :: rest, i =>
    (if c = openChar then
      match scanBal openChar closeChar rest 1 false false with
      | some k => [⟨c :: rest.take k, i⟩]
      | none => []
    else []) ++ findJSONBlocksLoop openChar closeChar rest (i + 1)

def findJSONBlocks (input : List Char) (openChar closeChar : Char) : List JSONCandidate :=
  findJSONBlocksLoop openChar closeChar input 0

/-- `findJSONInText` (extractor.go lines 75-85). -/
def findJSONInText (input : List Char) : List JSONCandidate :=
  findJSONBlocks input lbrace rbrace ++ findJSONBlocks input lbrack rbrack

/-- `ExtractJSON` (extractor.go lines 21-47); `none` models the
`NoJsonFound` error. -/
def ExtractJSON (input : List Char) : Option (List JSONCandidate) :=
  let trimmed := goTrimSpace input
  if isValidJSON trimmed then some [⟨trimmed, strIndexOf input trimmed⟩]
  else
    let candidates := extractMarkdownJSON input ++ findJSONInText input
    if candidates.isEmpty then none else some candidates

/-! ## Go types and coerced values (coercer.go)

`GoType` models `reflect.Type` for the kinds the coercer dispatches on.
Struct field lists are encoded inside the same inductive (`fnil`/`fcons`
chains) so that all recursion is structural; a well-formed struct type is
`tstruct fields` with `fields` such a chain.  Each field carries its Go
name, its raw `json` tag when present, and its type.

`GoVal` models the `interface\x7b\x7d` results the coercer produces.  `jv`
wraps a raw parsed value returned as-is (the `Interface` target and the
`valueType == targetType` shortcut).  A JSON `null` coerces to Go's nil
interface, modelled as the `none` of `Except CErr (Option GoVal)`. -/

inductive GoType where
  | string
  | tint (bits : Nat)
  | tuint (bits : Nat)
  | tfloat (bits : Nat)
  | tbool
  | iface
  | ptr (elem : GoType)
  | slice (elem : GoType)
  | tarray (n : Nat) (elem : GoType)
  | tmap (key : GoType) (elem : GoType)
  | tstruct (fields : GoType)
  | fnil
  | fcons (name : String) (tag : Option String) (ty : GoType) (rest : GoType)
deriving DecidableEq, Repr

inductive GoVal where
  | vnil
  | jv (v : JValue)
  | vstr (s : List Char)
  | vint (bits : Nat) (n : Int)
  | vuint (bits : Nat) (n : Int)
  | vfloat (bits : Nat) (x : GoF)
  | vbool (b : Bool)
  | vptr (p : Option GoVal)
  | vslice (xs : List GoVal)
  | varr (xs : List GoVal)
  | vmap (pairs : List (GoVal × GoVal))
  | vstruct (fields : List GoVal)

inductive CErr where
  | unsupportedType
  | stringToInt
  | cannotToInt
  | stringToFloat
  | cannotToFloat
  | stringToBool
  | cannotToBool
  | cannotToMap
  | cannotToStruct
deriving DecidableEq, Repr

/-- `reflect.TypeOf(value) == targetType` for the types `json.Unmarshal`
can produce (`bool`, `float64`, `string`, `[]interface\x7b\x7d`,
`map[string]interface\x7b\x7d`). -/
def typeMatchesValue : JValue → GoType → Bool
  | .bool _, .tbool => true
  | .num _, .tfloat 64 => true
  | .str _, .string => true
  | .arr _, .slice .iface => true
  | .obj _, .tmap .string .iface => true
  | _, _ => false

mutual

/-- `reflect.Zero` / zero-initialized values.  The zero slice and map are
Go nil slices/maps, represented as empty. -/
def zeroValue : GoType → GoVal
  | .string => .vstr []
  | .tint b => .vint b 0
  | .tuint b => .vuint b 0
  | .tfloat b => .vfloat b (.fin ⟨0, 1⟩)
  | .tbool => .vbool false
  | .iface => .vnil
  | .ptr _ => .vptr none
  | .slice _ => .vslice []
  | .tarray n e => .varr (List.replicate n (zeroValue e))
  | .tmap _ _ => .vmap []
  | .tstruct fs => .vstruct (zeroFields fs)
  | .fnil => .vnil
  | .fcons _ _ _ _ => .vnil

def zeroFields : GoType → List GoVal
  | .fcons _ _ ty rest => zeroValue ty :: zeroFields rest
  | _ => []

end

/-- Two's-complement wrap of `reflect.Value.Convert` to a signed width. -/
def wrapSigned (bits : Nat) (n : Int) : Int :=
  let m := (2 : Int) ^ bits
  let r := n % m
  if r < (2 : Int) ^ (bits - 1) then r else r - m

def wrapUnsigned (bits : Nat) (n : Int) : Int := n % (2 : Int) ^ bits

def truncGoF : GoF → Int
  | .fin q => q.trunc
  | .inf _ => 0
  | .nan => 0

/-- `strconv.FormatFloat(v, 'f', -1, 64)` for an exact value: minimal
decimal expansion (values whose reduced denominator is not of the form
`2^a·5^b` cannot arise from parsed doubles; they fall back to a fraction
rendering). -/
def formatFloatF (q : QR) : List Char :=
  match (List.range 41).find? (fun k => (10 ^ k) % q.den = 0) with
  | some k =>
    if k = 0 then (toString q.num).data
    else
      let scaled := q.num.natAbs * ((10 ^ k) / q.den)
      let ipart := scaled / 10 ^ k
      let fpart := scaled % 10 ^ k
      let fdigits := (toString fpart).data
      (if q.num < 0 then ['-'] else []) ++ (toString ipart).data ++
        ('.' :: (List.replicate (k - fdigits.length) '0' ++ fdigits))
  | none => (toString q.num).data ++ ('/' :: (toString q.den).data)

def joinSpace : List (List Char) → List Char
  | [] => []
  | [x] => x
  | x :: y :: r => x ++ (' ' :: joinSpace (y :: r))

/-- Model of `fmt.Sprintf("%v", v)` for the parsed-value universe (the
default case of `coerceToString`; no claim exercises it).  Slices print
space-separated in brackets; maps print their pairs in stored order
(Go's fmt sorts map keys — the difference is irrelevant here). -/
def goSprintfV : JValue → List Char
  | .null => (['<'] ++ "nil".data ++ ['>'])
  | .bool b => if b then "true".data else "false".data
  | .num q => formatFloatF q
  | .str s => s
  | .arr xs =>
    lbrack :: (joinSpace (xs.attach.map (fun x => goSprintfV x.1)) ++ [rbrack])
  | .obj ps =>
    "map".data ++ (lbrack ::
      (joinSpace (ps.attach.map (fun p => p.1.1 ++ (':' :: goSprintfV p.1.2))) ++
        [rbrack]))
decreasing_by
  · have := List.sizeOf_lt_of_mem x.2
    simp_all
    omega
  · rcases p with ⟨⟨k, v⟩, hp⟩
    have := List.sizeOf_lt_of_mem hp
    simp_all
    omega

/-- `coerceToString` (coercer.go lines 97-115); it never fails. -/
def coerceToString (value : JValue) : GoVal :=
  match value with
  | .str s => .vstr s
  | .num q =>
    if (QR.ofInt q.trunc) = q then .vstr (toString q.trunc).data
    else .vstr (formatFloatF q)
  | .bool b => .vstr (if b then "true".data else "false".data)
  | v => .vstr (goSprintfV v)

/-- `reflect.Value.Convert(targetType)` at the end of `coerceToInt`. -/
def intConvert (t : GoType) (n : Int) : GoVal :=
  match t with
  | .tint b => .vint b (wrapSigned b n)
  | _ => .vint 64 (wrapSigned 64 n)

/-- `coerceToInt` (coercer.go lines 118-151). -/
def coerceToInt (value : JValue) (t : GoType) (s : Score) : Except CErr GoVal × Score :=
  match value with
  | .num q =>
    let intVal := q.trunc
    let s1 := if (QR.ofInt intVal) ≠ q then s.AddFlag "FloatToInt" 1 else s
    (.ok (intConvert t intVal), s1)
  | .str sv =>
    match parseNumber sv with
    | some g => (.ok (intConvert t (truncGoF g)), s.AddFlag "StringToInt" 2)
    | none => (.error .stringToInt, s)
  | .bool b =>
    (.ok (intConvert t (if b then 1 else 0)), s.AddFlag "BoolToInt" 2)
  | _ => (.error .cannotToInt, s)

/-- `coerceToUint` (coercer.go lines 154-163): goes through `coerceToInt`
at `int64`, then converts. -/
def coerceToUint (value : JValue) (t : GoType) (s : Score) : Except CErr GoVal × Score :=
  match coerceToInt value (.tint 64) s with
  | (.ok gv, s1) =>
    let n := match gv with | .vint _ n => n | _ => 0
    let u := wrapUnsigned 64 n
    (match t with
     | .tuint b => (.ok (.vuint b (wrapUnsigned b u)), s1)
     | _ => (.ok (.vuint 64 u), s1))
  | (.error e, s1) => (.error e, s1)

def floatConvert (t : GoType) (g : GoF) : GoVal :=
  match t with
  | .tfloat b => .vfloat b g
  | _ => .vfloat 64 g

/-- `coerceToFloat` (coercer.go lines 166-190).  The Go `int…` input case
is dead code: `json.Unmarshal` into `interface\x7b\x7d` never produces Go
integers. -/
def coerceToFloat (value : JValue) (t : GoType) (s : Score) : Except CErr GoVal × Score :=
  match value with
  | .num q => (.ok (floatConvert t (.fin q)), s)
  | .str sv =>
    match parseNumber sv with
    | some g => (.ok (floatConvert t g), s.AddFlag "StringToFloat" 2)
    | none => (.error .stringToFloat, s)
  | _ => (.error .cannotToFloat, s)

/-- `coerceToBool` (coercer.go lines 193-218). -/
def coerceToBool (value : JValue) (s : Score) : Except CErr GoVal × Score :=
  match value with
  | .bool b => (.ok (.vbool b), s)
  | .str v =>
    let lower := (goTrimSpace v).map goToLower
    if lower = "true".data || lower = "yes".data || lower = "1".data || lower = "on".data then
      (.ok (.vbool true), s.AddFlag "StringToBool" 1)
    else if lower = "false".data || lower = "no".data || lower = "0".data || lower = "off".data then
      (.ok (.vbool false), s.AddFlag "StringToBool" 1)
    else (.error .stringToBool, s)
  | .num q => (.ok (.vbool (q.num ≠ 0)), s.AddFlag "NumberToBool" 1)
  | _ => (.error .cannotToBool, s)

/-- The `[]interface\x7b\x7d`-or-singleton view shared by the slice and
array coercions. -/
def sliceItems : JValue → List JValue
  | .arr xs => xs
  | v => [v]

/-- The element loop of `coerceToSlice`/`coerceToArray`, parameterized by
the element coercion.  A nil element (coerced JSON null) would make the Go
code panic in `reflect.Value.Set`; the model stores the zero value
instead (no claim depends on this corner). -/
def coerceElems (coe : JValue → Score → Except CErr (Option GoVal) × Score)
    (zeroElem : GoVal) : List JValue → Score → Except CErr (List GoVal) × Score
  | [], s => (.ok [], s)
  | item :: rest, s =>
    match coe item s with
    | (.ok elemOpt, s1) =>
      (match coerceElems coe zeroElem rest s1 with
       | (.ok xs, s2) => (.ok ((elemOpt.getD zeroElem) :: xs), s2)
       | (.error e, s2) => (.error e, s2))
    | (.error e, s1) => (.error e, s1)

/-- The pair loop of `coerceToMap`, parameterized by the key and element
coercions.  Pairs are enumerated in stored (first-occurrence) order; a
later pair with an equal coerced key is understood to shadow an earlier
one (Go `SetMapIndex` overwrite — no claim depends on collisions). -/
def coerceMapPairs (coeKey coeElem : JValue → Score → Except CErr (Option GoVal) × Score)
    (zeroKey zeroElem : GoVal) :
    List (List Char × JValue) → Score → Except CErr (List (GoVal × GoVal)) × Score
  | [], s => (.ok [], s)
  | (k, v) :: rest, s =>
    match coeKey (.str k) s with
    | (.error e, s1) => (.error e, s1)
    | (.ok keyOpt, s1) =>
      match coeElem v s1 with
      | (.error e, s2) => (.error e, s2)
      | (.ok elemOpt, s2) =>
        match coerceMapPairs coeKey coeElem zeroKey zeroElem rest s2 with
        | (.ok xs, s3) => (.ok ((keyOpt.getD zeroKey, elemOpt.getD zeroElem) :: xs), s3)
        | (.error e, s3) => (.error e, s3)

/-- Association lookup on object pairs (a Go map read). -/
def lookupPairs : List (List Char × JValue) → List Char → Option JValue
  | [], _ => none
  | (k, v) :: rest, key => if k = key then some v else lookupPairs rest key

/-- Model of `strings.EqualFold` via the lowercase table. -/
def goEqualFold (a b : List Char) : Bool :=
  a.map goToLower = b.map goToLower

/-- The enumeration-order oracle for Go's randomized `range` over a map:
any function producing a permutation of the stored pairs. -/
def ObjOrd : Type := List (List Char × JValue) → List (List Char × JValue)

/-- The key-resolution steps of `coerceToStruct` (coercer.go lines
313-346): JSON tag, then exact field name, then the first
case-insensitively equal key in map-enumeration order.  Returns Go's
`(mapKey, mapValue)` (empty `mapKey` = unresolved) plus whether the fuzzy
step was used (it adds `FuzzyFieldMatch`). -/
def resolveField (ord : ObjOrd) (pairs : List (List Char × JValue))
    (fieldName : List Char) (tag : Option (List Char)) :
    List Char × Option JValue × Bool :=
  let tagRes : List Char × Option JValue :=
    match tag with
    | some tg =>
      (match goSplit ',' tg with
       | p0 :: _ =>
         if p0 ≠ [] && p0 ≠ "-".data then
           match lookupPairs pairs p0 with
           | some v => (p0, some v)
           | none => ([], none)
         else ([], none)
       | [] => ([], none))
    | none => ([], none)
  if tagRes.1 ≠ [] then (tagRes.1, tagRes.2, false)
  else
    match lookupPairs pairs fieldName with
    | some v => (fieldName, some v, false)
    | none =>
      match (ord pairs).find? (fun p => goEqualFold p.1 fieldName) with
      | some p => (p.1, some p.2, true)
      | none => ([], none, false)

mutual

/-- `coerceValue` (coercer.go lines 33-94).  Branch order follows the
source: nil, `Interface` target, the `valueType == targetType` shortcut,
pointer targets, then the kind switch.  `fnil`/`fcons` hit the `default:
unsupported type` branch. -/
def coerceValue (ord : ObjOrd) (value : JValue) (t : GoType) (s : Score) :
    Except CErr (Option GoVal) × Score :=
  match value with
  | .null => (.ok none, s)
  | v =>
    if t = .iface then (.ok (some (.jv v)), s)
    else if typeMatchesValue v t then (.ok (some (.jv v)), s)
    else
      match t with
      | .ptr elemT =>
        (match coerceValue ord v elemT s with
         | (.ok none, s1) => (.ok (some (.vptr none)), s1)
         | (.ok (some gv), s1) => (.ok (some (.vptr (some gv))), s1)
         | (.error e, s1) => (.error e, s1))
      | .string => (.ok (some (coerceToString v)), s)
      | .tint b =>
        (match coerceToInt v (.tint b) s with
         | (.ok gv, s1) => (.ok (some gv), s1)
         | (.error e, s1) => (.error e, s1))
      | .tuint b =>
        (match coerceToUint v (.tuint b) s with
         | (.ok gv, s1) => (.ok (some gv), s1)
         | (.error e, s1) => (.error e, s1))
      | .tfloat b =>
        (match coerceToFloat v (.tfloat b) s with
         | (.ok gv, s1) => (.ok (some gv), s1)
         | (.error e, s1) => (.error e, s1))
      | .tbool =>
        (match coerceToBool v s with
         | (.ok gv, s1) => (.ok (some gv), s1)
         | (.error e, s1) => (.error e, s1))
      | .slice elemT =>
        (match coerceElems (fun it s2 => coerceValue ord it elemT s2)
               (zeroValue elemT) (sliceItems v) s with
         | (.ok xs, s1) => (.ok (some (.vslice xs)), s1)
         | (.error e, s1) => (.error e, s1))
      | .tarray n elemT =>
        let items := sliceItems v
        let m := Nat.min n items.length
        (match coerceElems (fun it s2 => coerceValue ord it elemT s2)
               (zeroValue elemT) (items.take m) s with
         | (.ok xs, s1) =>
           (.ok (some (.varr (xs ++ List.replicate (n - m) (zeroValue elemT)))), s1)
         | (.error e, s1) => (.error e, s1))
      | .tmap keyT elemT =>
        (match v with
         | .obj pairs =>
           (match coerceMapPairs (fun kv s2 => coerceValue ord kv keyT s2)
                  (fun ev s2 => coerceValue ord ev elemT s2)
                  (zeroValue keyT) (zeroValue elemT) pairs s with
            | (.ok xs, s1) => (.ok (some (.vmap xs)), s1)
            | (.error e, s1) => (.error e, s1))
         | _ => (.error .cannotToMap, s))
      | .tstruct fields =>
        (match v with
         | .obj pairs =>
           let r := coerceStructFields ord pairs fields s
           (.ok (some (.vstruct r.1)), r.2)
         | _ => (.error .cannotToStruct, s))
      | .iface => (.ok (some (.jv v)), s)
      | .fnil => (.error .unsupportedType, s)
      | .fcons _ _ _ _ => (.error .unsupportedType, s)

/-- The field loop of `coerceToStruct` (coercer.go lines 309-362):
resolve a key, coerce, skip the field on failure (leaving the
zero-initialized value), set zero explicitly for a nil element. -/
def coerceStructFields (ord : ObjOrd) (pairs : List (List Char × JValue)) :
    GoType → Score → List GoVal × Score
  | .fcons fname tag fty rest, s =>
    let r := resolveField ord pairs fname.data (tag.map String.data)
    let s1 := if r.2.2 then s.AddFlag "FuzzyFieldMatch" 1 else s
    if r.1 ≠ [] then
      match coerceValue ord (r.2.1.getD .null) fty s1 with
      | (.ok elemOpt, s2) =>
        let fv := match elemOpt with
          | some gv => gv
          | none => zeroValue fty
        let rec1 := coerceStructFields ord pairs rest s2
        (fv :: rec1.1, rec1.2)
      | (.error _, s2) =>
        let rec1 := coerceStructFields ord pairs rest s2
        (zeroValue fty :: rec1.1, rec1.2)
    else
      let rec1 := coerceStructFields ord pairs rest s1
      (zeroValue fty :: rec1.1, rec1.2)
  | _, s => ([], s)

end

/-- `TypeCoercer.Coerce` (coercer.go lines 23-31): a nil input returns a
nil result with a zero score; otherwise a fresh score is threaded through
`coerceValue`. -/
def Coerce (ord : ObjOrd) (value : JValue) (t : GoType) :
    Except CErr (Option GoVal) × Score :=
  match value with
  | .null => (.ok none, ⟨[], 0⟩)
  | v => coerceValue ord v t ⟨[], 0⟩

/-! ## The orchestrator (`ParseWithScore`, sap.go lines 82-148)

`PErr` models the error cases: extraction failure, a recorded
parse-after-repair failure, a recorded coercion failure, and the
"no candidate adopted, no error recorded" final state.  `FixJSON` itself
never fails (its error is always nil), so the `fixErr` branch is dead. -/

inductive PErr where
  | noJSON
  | unmarshalFail
  | coerceFail (e : CErr)
  | noBest
deriving DecidableEq, Repr

/-- The candidate loop (sap.go lines 104-141), threading
`(bestResult, bestScore)` and `bestErr` exactly as the source: a candidate
failure records `bestErr`; adopting a better candidate resets it to nil;
a successful candidate that does not beat the best leaves it untouched. -/
def parseLoop (ord : ObjOrd) (strict : Bool) (t : GoType) :
    List JSONCandidate → Option (Option GoVal × Score) → Option PErr →
    Option (Option GoVal × Score) × Option PErr
  | [], best, bestErr => (best, bestErr)
  | c :: rest, best, bestErr =>
    let afterParse : JValue → Option (Option GoVal × Score) × Option PErr := fun raw =>
      match Coerce ord raw t with
      | (.ok result, candScore) =>
        (match best with
         | none => parseLoop ord strict t rest (some (result, candScore)) none
         | some b =>
           if candScore.Less b.2 then
             parseLoop ord strict t rest (some (result, candScore)) none
           else parseLoop ord strict t rest best bestErr)
      | (.error e, _) => parseLoop ord strict t rest best (some (.coerceFail e))
    match jsonUnmarshal c.JSON with
    | some raw => afterParse raw
    | none =>
      if strict then parseLoop ord strict t rest best bestErr
      else
        match jsonUnmarshal (fixJSON c.JSON) with
        | some raw => afterParse raw
        | none => parseLoop ord strict t rest best (some .unmarshalFail)

/-- `sapParser.ParseWithScore` (sap.go lines 82-148). -/
def ParseWithScore (ord : ObjOrd) (strict : Bool) (input : List Char) (t : GoType) :
    Except PErr (Option GoVal × Score) :=
  match ExtractJSON input with
  | none => .error .noJSON
  | some candidates =>
    if candidates.length = 0 then .error .noJSON
    else
      let r := parseLoop ord strict t candidates none none
      match r.2 with
      | some e => .error e
      | none =>
        match r.1 with
        | some best => .ok best
        | none => .error .noBest

/-- The value a candidate contributes to the loop, when any: strict parse,
else (in non-strict mode) repair followed by strict parse. -/
def parseCandidateValue (strict : Bool) (c : JSONCandidate) : Option JValue :=
  match jsonUnmarshal c.JSON with
  | some v => some v
  | none => if strict then none else jsonUnmarshal (fixJSON c.JSON)

/-- Hereditary fold-uniqueness: no object anywhere in the value carries
two keys that are equal under case folding.  Under this condition the
case-insensitive field fallback has at most one possible answer, making
the map-enumeration order invisible. -/
inductive FoldUniq : JValue → Prop where
  | null : FoldUniq .null
  | bool (b : Bool) : FoldUniq (.bool b)
  | num (q : QR) : FoldUniq (.num q)
  | str (s : List Char) : FoldUniq (.str s)
  | arr (xs : List JValue) : (∀ x ∈ xs, FoldUniq x) → FoldUniq (.arr xs)
  | obj (ps : List (List Char × JValue)) :
      List.Pairwise (fun a b => goEqualFold a.1 b.1 = false) ps →
      (∀ p ∈ ps, FoldUniq p.2) → FoldUniq (.obj ps)

/-! ## Concrete types used by the claim theorems -/

/-- `struct \x7b Name string `json:"name"` \x7d`, the smallest record
target the tests use. -/
def TName : GoType := .tstruct (.fcons "Name" (some "name") .string .fnil)

def TPerson : GoType :=
  .tstruct (.fcons "Name" (some "name") .string
    (.fcons "Email" (some "email") .string .fnil))

/-- The `Company` struct of multiple_candidates_test.go lines 8-12. -/
def TCompany : GoType :=
  .tstruct (.fcons "Name" (some "name") .string
    (.fcons "Employees" (some "employees") (.slice TPerson)
      (.fcons "Department" (some "department,omitempty") (.ptr .string) .fnil)))

/-!
# Theorems
-/

/-! ## C10: AddFlag replaces the per-flag entry but accumulates the total -/

theorem lookupFlag_upsert (l : List (String × Int)) (f : String) (v : Int) :
    lookupFlag (upsertFlag l f v) f = some v := by
  induction l with
  | nil => simp [upsertFlag, lookupFlag]
  | cons p rest ih =>
    by_cases h : p.1 = f
    · simp [upsertFlag, h, lookupFlag]
    · simp [upsertFlag, h, lookupFlag, ih]

/-- Claim C10: `AddFlag(f, d)` replaces the per-flag entry for `f` with `d`
while still adding `d` to the running total; consequently two calls
`AddFlag(f, 1)` on a fresh score leave `Total() = 2` although the flags map
records only `1` for `f`, so the total can exceed the sum of the per-flag
diagnostic values. -/
theorem addFlag_replaces_entry_but_accumulates_total
    (s : Score) (f : String) (d : Int) :
    lookupFlag (s.AddFlag f d).flags f = some d ∧
    (s.AddFlag f d).Total = s.Total + d ∧
    ((Score.empty.AddFlag f 1).AddFlag f 1).Total = 2 ∧
    lookupFlag ((Score.empty.AddFlag f 1).AddFlag f 1).flags f = some 1 := by
  refine ⟨lookupFlag_upsert _ _ _, rfl, ?_, ?_⟩
  · simp [Score.AddFlag, Score.Total, Score.empty]
  · simp [Score.AddFlag, Score.empty, upsertFlag, lookupFlag]

/-! ## C1: a failing candidate after a successful one surfaces as an error

The orchestrator only clears `bestErr` when it adopts a strictly better
candidate, so a candidate that fails after a success leaves `bestErr`
non-nil and the final `bestErr != nil` check turns the whole call into an
error.  The input below is literally the input of the repository's own
`TestSuccessfulCandidateAfterFailures` (multiple_candidates_test.go lines
151-166), which expects success: the object candidate (found by the object
pass, hence first) coerces with score 0, the later `[1, 2, 3]` candidate
fails to coerce, and `ParseWithScore` returns an error. -/

/-- Claim C1 (code bug): on an input where one candidate coerces
successfully but a later candidate fails, `ParseWithScore` returns an
error instead of the best result, contradicting the claimed "per-candidate
failures are swallowed; an error surfaces only when every candidate
fails". -/
theorem parseWithScore_error_despite_successful_candidate :
    ParseWithScore id false
      "[1, 2, 3]\n\n\x7b\x22name\x22: \x22Success Corp\x22, \x22employees\x22: []\x7d".data
      TCompany = .error (.coerceFail .cannotToStruct) ∧
    Coerce id (.obj [("name".data, .str "Success Corp".data), ("employees".data, .arr [])])
      TCompany =
      (.ok (some (.vstruct [.jv (.str "Success Corp".data), .vslice [], .vptr none])),
        ⟨[], 0⟩) := by
  exact ⟨rfl, rfl⟩

/-! ## C3: repair is not idempotent with respect to strict parseability

`FixJSON "[\x7b"` closes both brackets and yields `"[\x7b\x7d]"`, which
strictly parses.  Running `FixJSON` on that output misfires: closing the
inner object triggers `quoteUnquotedValue`, which scans back to the `[`
and wraps the lone `\x7b` in quotes, producing `[ "\x7b"\x7d]` — no longer
strictly parseable. -/

/-- Claim C3 (code bug): for `x = "[\x7b"`, `FixJSON(x)` strictly parses
but `FixJSON(FixJSON(x))` does not, refuting `repair(repair(x))` parses
iff `repair(x)` parses. -/
theorem fixJSON_not_idempotent_on_bracket_input :
    fixJSON "[\x7b".data = "[\x7b\x7d]".data ∧
    isValidJSON (fixJSON "[\x7b".data) = true ∧
    fixJSON (fixJSON "[\x7b".data) = "[ \x22\x7b\x22\x7d]".data ∧
    isValidJSON (fixJSON (fixJSON "[\x7b".data)) = false := by
  exact ⟨rfl, rfl, rfl, rfl⟩

/-! ## C2: the orchestrator is not deterministic

`coerceToStruct`'s case-insensitive fallback ranges over a Go map, whose
enumeration order is randomized per run.  With two distinct keys that both
case-fold to the field name, two runs can resolve different keys.  The
model exposes the enumeration order as the `ObjOrd` oracle; `id` and
`List.reverse` are both legitimate orders (each yields a permutation of
the stored pairs). -/

/-- Claim C2 (counterexample): identical input, two legitimate map
enumeration orders, different results — the orchestrator is not a
function of the input alone. -/
theorem orchestrator_order_dependent :
    ParseWithScore id false
      "\x7b\x22NAME\x22:\x22a\x22,\x22NaMe\x22:\x22b\x22\x7d".data TName =
      .ok (some (.vstruct [.jv (.str "a".data)]), ⟨[("FuzzyFieldMatch", 1)], 1⟩) ∧
    ParseWithScore List.reverse false
      "\x7b\x22NAME\x22:\x22a\x22,\x22NaMe\x22:\x22b\x22\x7d".data TName =
      .ok (some (.vstruct [.jv (.str "b".data)]), ⟨[("FuzzyFieldMatch", 1)], 1⟩) ∧
    ("a".data : List Char) ≠ "b".data := by
  exact ⟨rfl, rfl, by decide⟩

/-! ## C7: the number parser, corrected for whitespace trimming

The claim omits the `strings.TrimSpace` steps: the code first trims the
whole string and also trims each side of a fraction before float-parsing.
On `" 1 "` the code succeeds while the claim's algorithm (a strict float
parse of `" 1 "`, which rejects spaces) fails. -/

/-- Claim C7 (counterexample): `parseNumber` and the claim's untrimmed
algorithm disagree at `" 1 "`. -/
theorem parseNumber_claim_counterexample :
    parseNumber " 1 ".data = some (.fin ⟨1, 1⟩) ∧
    parseNumberClaim " 1 ".data = none := by
  exact ⟨rfl, rfl⟩

theorem goSplit_ne_nil (sep : Char) (l : List Char) : goSplit sep l ≠ [] := by
  cases l with
  | nil => simp [goSplit]
  | cons c rest =>
    by_cases h : c = sep
    · simp [goSplit, h]
    · simp only [goSplit, h, if_neg, ite_false]
      cases hg : goSplit sep rest <;> simp

theorem goSplit_length (sep : Char) (l : List Char) :
    (goSplit sep l).length = l.count sep + 1 := by
  induction l with
  | nil => simp [goSplit]
  | cons c rest ih =>
    by_cases h : c = sep
    · subst h
      simp [goSplit, List.count_cons, ih]
    · cases hg : goSplit sep rest with
      | nil => exact absurd hg (goSplit_ne_nil sep rest)
      | cons hh tt =>
        rw [hg] at ih
        simp only [goSplit, h, ite_false, hg, List.length_cons, List.count_cons]
        simp only [List.length_cons] at ih
        have hbeq : (c == sep) = false := by
          simp only [beq_eq_false_iff_ne, ne_eq]
          exact h
        rw [hbeq]
        simp
        omega

theorem contains_iff_mem {s : List Char} {c : Char} : s.contains c = true ↔ c ∈ s := by
  simp [List.contains, List.elem_eq_mem]

/-- Claim C7 as amended: with the whitespace-trimming steps included, the
claim's algorithm is exactly `parseNumber` — for every input string, the
code returns the fraction value when the stripped string has exactly one
`/` with float-parsing sides and a nonzero denominator, else the plain
float parse. -/
theorem parseNumber_eq_amended_claim (l : List Char) :
    parseNumber l = parseNumberClaimAmended l := by
  show (let s0 := goTrimSpace l;
        let s := (s0.filter (fun c => c ≠ '$')).filter (fun c => c ≠ ',')
        if s.contains '/' then
          match goSplit '/' s with
          | [p0, p1] =>
            match goParseFloat (goTrimSpace p0), goParseFloat (goTrimSpace p1) with
            | some a, some b => if b.isZero = false then some (a.div b) else goParseFloat s
            | _, _ => goParseFloat s
          | _ => goParseFloat s
        else goParseFloat s) =
      (let s0 := goTrimSpace l;
       let s := (s0.filter (fun c => c ≠ '$')).filter (fun c => c ≠ ',')
       if s.count '/' = 1 then
         match goSplit '/' s with
         | [p0, p1] =>
           match goParseFloat (goTrimSpace p0), goParseFloat (goTrimSpace p1) with
           | some a, some b => if b.isZero = false then some (a.div b) else goParseFloat s
           | _, _ => goParseFloat s
         | _ => goParseFloat s
       else goParseFloat s)
  simp only []
  generalize ((goTrimSpace l).filter (fun c => c ≠ '$')).filter (fun c => c ≠ ',') = s
  have hlen := goSplit_length '/' s
  by_cases h1 : s.count '/' = 1
  · have hc : s.contains '/' = true :=
      contains_iff_mem.mpr (List.count_pos_iff.mp (by omega))
    rw [hc, if_pos rfl, if_pos h1]
  · by_cases h0 : s.count '/' = 0
    · have hc : s.contains '/' = false := by
        by_contra hcc
        have hmem : '/' ∈ s := contains_iff_mem.mp (by revert hcc; cases s.contains '/' <;> simp)
        have := List.count_pos_iff.mpr hmem
        omega
      rw [hc, if_neg (by simp), if_neg h1]
    · -- two or more slashes: the split has at least three parts, both
      -- algorithms fall back to the plain float parse
      have hc : s.contains '/' = true :=
        contains_iff_mem.mpr (List.count_pos_iff.mp (by omega))
      rw [hc, if_pos rfl, if_neg h1]
      rcases hg : goSplit '/' s with _ | ⟨a, _ | ⟨b, _ | ⟨c2, t3⟩⟩⟩ <;>
        first
          | exact absurd hg (goSplit_ne_nil '/' s)
          | rfl
          | (rw [hg] at hlen; simp at hlen; omega)

/-! ## C4: the score total never decreases during a coercion

Every `AddFlag` call site in the coercer carries a penalty of 1 or 2, so
the threaded score total is monotone.  The helper lemmas are stated on the
result equation so that they apply inside `split`-generated branches. -/

theorem addFlag_total_mono (s : Score) (f : String) (d : Int) (hd : 0 ≤ d) :
    s.total ≤ (s.AddFlag f d).total := by
  simp [Score.AddFlag]
  omega

/-- Transfer a goal-side monotonicity fact through a result equation. -/
theorem snd_total_le_of_eq {α : Type} {P : α × Score} {s : Score} {r : α} {s1 : Score}
    (hm : s.total ≤ P.2.total) (h : P = (r, s1)) : s.total ≤ s1.total := by
  rw [h] at hm
  simpa using hm

theorem coerceToInt_total_mono (v : JValue) (t : GoType) (s : Score) :
    s.total ≤ (coerceToInt v t s).2.total := by
  cases v with
  | num q =>
    by_cases h : (QR.ofInt q.trunc) ≠ q <;>
      simp [coerceToInt, h, Score.AddFlag] <;> try omega
  | str sv =>
    cases hp : parseNumber sv <;> simp [coerceToInt, hp, Score.AddFlag] <;> try omega
  | bool b => simp [coerceToInt, Score.AddFlag]
  | null => simp [coerceToInt]
  | arr xs => simp [coerceToInt]
  | obj ps => simp [coerceToInt]

theorem coerceToInt_total_mono' {v : JValue} {t : GoType} {s : Score}
    {r : Except CErr GoVal} {s1 : Score} (h : coerceToInt v t s = (r, s1)) :
    s.total ≤ s1.total :=
  snd_total_le_of_eq (coerceToInt_total_mono v t s) h

theorem coerceToUint_total_mono (v : JValue) (t : GoType) (s : Score) :
    s.total ≤ (coerceToUint v t s).2.total := by
  have hm := coerceToInt_total_mono v (.tint 64) s
  rcases hE : coerceToInt v (.tint 64) s with ⟨r0, s0⟩
  rw [hE] at hm
  simp at hm
  cases r0 <;> cases t <;> simp [coerceToUint, hE] <;> omega

theorem coerceToUint_total_mono' {v : JValue} {t : GoType} {s : Score}
    {r : Except CErr GoVal} {s1 : Score} (h : coerceToUint v t s = (r, s1)) :
    s.total ≤ s1.total :=
  snd_total_le_of_eq (coerceToUint_total_mono v t s) h

theorem coerceToFloat_total_mono (v : JValue) (t : GoType) (s : Score) :
    s.total ≤ (coerceToFloat v t s).2.total := by
  cases v with
  | num q => simp [coerceToFloat]
  | str sv =>
    cases hp : parseNumber sv <;>
      simp [coerceToFloat, hp, Score.AddFlag]
  | bool b => simp [coerceToFloat]
  | null => simp [coerceToFloat]
  | arr xs => simp [coerceToFloat]
  | obj ps => simp [coerceToFloat]

theorem coerceToFloat_total_mono' {v : JValue} {t : GoType} {s : Score}
    {r : Except CErr GoVal} {s1 : Score} (h : coerceToFloat v t s = (r, s1)) :
    s.total ≤ s1.total :=
  snd_total_le_of_eq (coerceToFloat_total_mono v t s) h

theorem coerceToBool_total_mono (v : JValue) (s : Score) :
    s.total ≤ (coerceToBool v s).2.total := by
  cases v with
  | bool b => simp [coerceToBool]
  | num q => simp [coerceToBool, Score.AddFlag]
  | null => simp [coerceToBool]
  | arr xs => simp [coerceToBool]
  | obj ps => simp [coerceToBool]
  | str sv =>
    simp only [coerceToBool]
    split
    · simp [Score.AddFlag]
    · split
      · simp [Score.AddFlag]
      · simp

theorem coerceToBool_total_mono' {v : JValue} {s : Score}
    {r : Except CErr GoVal} {s1 : Score} (h : coerceToBool v s = (r, s1)) :
    s.total ≤ s1.total :=
  snd_total_le_of_eq (coerceToBool_total_mono v s) h

theorem coerceElems_total_mono
    (coe : JValue → Score → Except CErr (Option GoVal) × Score) (z : GoVal)
    (hcoe : ∀ it s2, s2.total ≤ (coe it s2).2.total) :
    ∀ (items : List JValue) (s : Score),
      s.total ≤ (coerceElems coe z items s).2.total := by
  intro items
  induction items with
  | nil => intro s; simp [coerceElems]
  | cons item rest ih =>
    intro s
    have h1 := hcoe item s
    rcases hE : coe item s with ⟨r0, s0⟩
    rw [hE] at h1
    simp at h1
    cases r0 with
    | ok elemOpt =>
      have h2 := ih s0
      rcases hR : coerceElems coe z rest s0 with ⟨r2, s2⟩
      rw [hR] at h2
      simp at h2
      cases r2 <;> simp [coerceElems, hE, hR] <;> omega
    | error e =>
      simp [coerceElems, hE]
      omega

theorem coerceElems_total_mono'
    (coe : JValue → Score → Except CErr (Option GoVal) × Score) (z : GoVal)
    (hcoe : ∀ it s2, s2.total ≤ (coe it s2).2.total)
    {items : List JValue} {s : Score} {r : Except CErr (List GoVal)} {s1 : Score}
    (h : coerceElems coe z items s = (r, s1)) : s.total ≤ s1.total :=
  snd_total_le_of_eq (coerceElems_total_mono coe z hcoe items s) h

theorem coerceMapPairs_total_mono
    (coeKey coeElem : JValue → Score → Except CErr (Option GoVal) × Score)
    (zk ze : GoVal)
    (hk : ∀ it s2, s2.total ≤ (coeKey it s2).2.total)
    (he : ∀ it s2, s2.total ≤ (coeElem it s2).2.total) :
    ∀ (pairs : List (List Char × JValue)) (s : Score),
      s.total ≤ (coerceMapPairs coeKey coeElem zk ze pairs s).2.total := by
  intro pairs
  induction pairs with
  | nil => intro s; simp [coerceMapPairs]
  | cons p rest ih =>
    intro s
    obtain ⟨k, v⟩ := p
    have h1 := hk (.str k) s
    rcases hE : coeKey (.str k) s with ⟨r0, s0⟩
    rw [hE] at h1
    simp at h1
    cases r0 with
    | ok keyOpt =>
      have h2 := he v s0
      rcases hF : coeElem v s0 with ⟨r2, s2⟩
      rw [hF] at h2
      simp at h2
      cases r2 with
      | ok elemOpt =>
        have h3 := ih s2
        rcases hR : coerceMapPairs coeKey coeElem zk ze rest s2 with ⟨r3, s3⟩
        rw [hR] at h3
        simp at h3
        cases r3 <;> simp [coerceMapPairs, hE, hF, hR] <;> omega
      | error e =>
        simp [coerceMapPairs, hE, hF]
        omega
    | error e =>
      simp [coerceMapPairs, hE]
      omega

theorem coerceMapPairs_total_mono'
    (coeKey coeElem : JValue → Score → Except CErr (Option GoVal) × Score)
    (zk ze : GoVal)
    (hk : ∀ it s2, s2.total ≤ (coeKey it s2).2.total)
    (he : ∀ it s2, s2.total ≤ (coeElem it s2).2.total)
    {pairs : List (List Char × JValue)} {s : Score}
    {r : Except CErr (List (GoVal × GoVal))} {s1 : Score}
    (h : coerceMapPairs coeKey coeElem zk ze pairs s = (r, s1)) : s.total ≤ s1.total :=
  snd_total_le_of_eq (coerceMapPairs_total_mono coeKey coeElem zk ze hk he pairs s) h

theorem coerce_total_mono (t : GoType) :
    (∀ (ord : ObjOrd) (v : JValue) (s : Score),
        s.total ≤ (coerceValue ord v t s).2.total) ∧
    (∀ (ord : ObjOrd) (pairs : List (List Char × JValue)) (s : Score),
        s.total ≤ (coerceStructFields ord pairs t s).2.total) := by
  induction t with
  | string =>
    refine ⟨fun ord v s => ?_, fun ord pairs s => ?_⟩
    · cases v <;> simp [coerceValue, typeMatchesValue]
    · simp [coerceStructFields]
  | tint b =>
    refine ⟨fun ord v s => ?_, fun ord pairs s => ?_⟩
    · cases v <;> simp only [coerceValue] <;> (repeat' split) <;>
        first
          | (exact coerceToInt_total_mono' (by assumption))
          | (simpa using coerceToInt_total_mono' (by assumption))
          | simp
    · simp [coerceStructFields]
  | tuint b =>
    refine ⟨fun ord v s => ?_, fun ord pairs s => ?_⟩
    · cases v <;> simp only [coerceValue] <;> (repeat' split) <;>
        first
          | (exact coerceToUint_total_mono' (by assumption))
          | (simpa using coerceToUint_total_mono' (by assumption))
          | simp
    · simp [coerceStructFields]
  | tfloat b =>
    refine ⟨fun ord v s => ?_, fun ord pairs s => ?_⟩
    · cases v <;> simp only [coerceValue] <;> (repeat' split) <;>
        first
          | (exact coerceToFloat_total_mono' (by assumption))
          | (simpa using coerceToFloat_total_mono' (by assumption))
          | simp
    · simp [coerceStructFields]
  | tbool =>
    refine ⟨fun ord v s => ?_, fun ord pairs s => ?_⟩
    · cases v <;> simp only [coerceValue] <;> (repeat' split) <;>
        first
          | (exact coerceToBool_total_mono' (by assumption))
          | (simpa using coerceToBool_total_mono' (by assumption))
          | simp
    · simp [coerceStructFields]
  | iface =>
    refine ⟨fun ord v s => ?_, fun ord pairs s => ?_⟩
    · cases v <;> simp [coerceValue]
    · simp [coerceStructFields]
  | ptr elem ih =>
    refine ⟨fun ord v s => ?_, fun ord pairs s => ?_⟩
    · have ih1 : ∀ vv s0 r s1, coerceValue ord vv elem s0 = (r, s1) → s0.total ≤ s1.total := by
        intro vv s0 r s1 h
        have := ih.1 ord vv s0
        rw [h] at this
        simpa using this
      cases v <;> simp only [coerceValue] <;> (repeat' split) <;>
        first
          | (exact ih1 _ _ _ _ (by assumption))
          | (simpa using ih1 _ _ _ _ (by assumption))
          | simp
    · simp [coerceStructFields]
  | slice elem ih =>
    refine ⟨fun ord v s => ?_, fun ord pairs s => ?_⟩
    · cases v <;> simp only [coerceValue] <;> (repeat' split) <;>
        first
          | (exact coerceElems_total_mono' _ _ (fun it s2 => ih.1 ord it s2) (by assumption))
          | (simpa using coerceElems_total_mono' _ _ (fun it s2 => ih.1 ord it s2) (by assumption))
          | simp
    · simp [coerceStructFields]
  | tarray n elem ih =>
    refine ⟨fun ord v s => ?_, fun ord pairs s => ?_⟩
    · cases v <;> simp only [coerceValue] <;> (repeat' split) <;>
        first
          | (exact coerceElems_total_mono' _ _ (fun it s2 => ih.1 ord it s2) (by assumption))
          | (simpa using coerceElems_total_mono' _ _ (fun it s2 => ih.1 ord it s2) (by assumption))
          | simp
    · simp [coerceStructFields]
  | tmap kt et ihk ihe =>
    refine ⟨fun ord v s => ?_, fun ord pairs s => ?_⟩
    · cases v <;> simp only [coerceValue] <;> (repeat' split) <;>
        first
          | (exact coerceMapPairs_total_mono' _ _ _ _
               (fun it s2 => ihk.1 ord it s2) (fun it s2 => ihe.1 ord it s2) (by assumption))
          | (simpa using coerceMapPairs_total_mono' _ _ _ _
               (fun it s2 => ihk.1 ord it s2) (fun it s2 => ihe.1 ord it s2) (by assumption))
          | simp
    · simp [coerceStructFields]
  | tstruct fields ih =>
    refine ⟨fun ord v s => ?_, fun ord pairs s => ?_⟩
    · cases v <;> simp only [coerceValue] <;> (repeat' split) <;>
        first
          | (simpa using ih.2 ord _ s)
          | simp
    · simp [coerceStructFields]
  | fnil =>
    refine ⟨fun ord v s => ?_, fun ord pairs s => ?_⟩
    · cases v <;> simp [coerceValue, typeMatchesValue]
    · simp [coerceStructFields]
  | fcons fname tag ty rest ihty ihrest =>
    refine ⟨fun ord v s => ?_, fun ord pairs s => ?_⟩
    · cases v <;> simp [coerceValue, typeMatchesValue]
    · have hty : ∀ vv s0 r s1, coerceValue ord vv ty s0 = (r, s1) → s0.total ≤ s1.total := by
        intro vv s0 r s1 h
        have := ihty.1 ord vv s0
        rw [h] at this
        simpa using this
      have hrest : ∀ s0 : Score, s0.total ≤ (coerceStructFields ord pairs rest s0).2.total :=
        fun s0 => ihrest.2 ord pairs s0
      simp only [coerceStructFields]
      have hs1 : s.total ≤
          (if (resolveField ord pairs fname.data (tag.map String.data)).2.2 = true then
            s.AddFlag "FuzzyFieldMatch" 1 else s).total := by
        split
        · exact addFlag_total_mono s _ 1 (by omega)
        · exact le_refl _
      generalize hS1 : (if (resolveField ord pairs fname.data (tag.map String.data)).2.2 = true
          then s.AddFlag "FuzzyFieldMatch" 1 else s) = s1 at hs1
      split
      · rcases hE : coerceValue ord
            (((resolveField ord pairs fname.data (tag.map String.data)).2.1).getD .null) ty s1
          with ⟨r0, s0⟩
        have h1 := hty _ _ _ _ hE
        cases r0 with
        | ok elemOpt =>
          have h2 := hrest s0
          rcases hR : coerceStructFields ord pairs rest s0 with ⟨vs, s2⟩
          rw [hR] at h2
          simp [hE, hR]
          simp at h2
          omega
        | error e =>
          have h2 := hrest s0
          rcases hR : coerceStructFields ord pairs rest s0 with ⟨vs, s2⟩
          rw [hR] at h2
          simp [hE, hR]
          simp at h2
          omega
      · have h2 := hrest s1
        rcases hR : coerceStructFields ord pairs rest s1 with ⟨vs, s2⟩
        rw [hR] at h2
        simp [hR]
        simp at h2
        omega

/-- Claim C4: during a single coercion the score total never decreases —
every `AddFlag` the coercer performs adds a non-negative penalty, so the
total after any call to `coerceValue` is at least the total before it. -/
theorem coerceValue_score_monotone (ord : ObjOrd) (v : JValue) (t : GoType) (s : Score) :
    s.Total ≤ ((coerceValue ord v t s).2).Total :=
  (coerce_total_mono t).1 ord v s

/-! ## Score irrelevance

The score is write-only: the coercion outcome (the first component) never
depends on the score it was started with.  This makes the per-element /
per-field failure conditions of C8 and C9 well-defined independently of
the accumulated score state. -/

theorem coerceToInt_fst (v : JValue) (t : GoType) (s1 s2 : Score) :
    (coerceToInt v t s1).1 = (coerceToInt v t s2).1 := by
  cases v with
  | num q => simp [coerceToInt]
  | str sv => cases hp : parseNumber sv <;> simp [coerceToInt, hp]
  | bool b => simp [coerceToInt]
  | null => simp [coerceToInt]
  | arr xs => simp [coerceToInt]
  | obj ps => simp [coerceToInt]

theorem coerceToUint_fst (v : JValue) (t : GoType) (s1 s2 : Score) :
    (coerceToUint v t s1).1 = (coerceToUint v t s2).1 := by
  have hf := coerceToInt_fst v (.tint 64) s1 s2
  rcases hA : coerceToInt v (.tint 64) s1 with ⟨r1, t1⟩
  rcases hB : coerceToInt v (.tint 64) s2 with ⟨r2, t2⟩
  rw [hA, hB] at hf
  simp at hf
  subst hf
  cases r1 <;> cases t <;> simp [coerceToUint, hA, hB]

theorem coerceToFloat_fst (v : JValue) (t : GoType) (s1 s2 : Score) :
    (coerceToFloat v t s1).1 = (coerceToFloat v t s2).1 := by
  cases v with
  | num q => simp [coerceToFloat]
  | str sv => cases hp : parseNumber sv <;> simp [coerceToFloat, hp]
  | bool b => simp [coerceToFloat]
  | null => simp [coerceToFloat]
  | arr xs => simp [coerceToFloat]
  | obj ps => simp [coerceToFloat]

theorem coerceToBool_fst (v : JValue) (s1 s2 : Score) :
    (coerceToBool v s1).1 = (coerceToBool v s2).1 := by
  cases v with
  | bool b => simp [coerceToBool]
  | num q => simp [coerceToBool]
  | null => simp [coerceToBool]
  | arr xs => simp [coerceToBool]
  | obj ps => simp [coerceToBool]
  | str sv =>
    simp only [coerceToBool]
    split <;> [skip; split] <;> simp

theorem coerceElems_fst
    (coe : JValue → Score → Except CErr (Option GoVal) × Score) (z : GoVal)
    (hcoe : ∀ it u1 u2, (coe it u1).1 = (coe it u2).1) :
    ∀ (items : List JValue) (s1 s2 : Score),
      (coerceElems coe z items s1).1 = (coerceElems coe z items s2).1 := by
  intro items
  induction items with
  | nil => intro s1 s2; simp [coerceElems]
  | cons item rest ih =>
    intro s1 s2
    have hf := hcoe item s1 s2
    rcases hA : coe item s1 with ⟨r1, t1⟩
    rcases hB : coe item s2 with ⟨r2, t2⟩
    rw [hA, hB] at hf
    simp at hf
    subst hf
    cases r1 with
    | ok elemOpt =>
      have hr := ih t1 t2
      rcases hC : coerceElems coe z rest t1 with ⟨q1, w1⟩
      rcases hD : coerceElems coe z rest t2 with ⟨q2, w2⟩
      rw [hC, hD] at hr
      simp at hr
      subst hr
      cases q1 <;> simp [coerceElems, hA, hB, hC, hD]
    | error e => simp [coerceElems, hA, hB]

theorem coerceMapPairs_fst
    (coeKey coeElem : JValue → Score → Except CErr (Option GoVal) × Score)
    (zk ze : GoVal)
    (hk : ∀ it u1 u2, (coeKey it u1).1 = (coeKey it u2).1)
    (he : ∀ it u1 u2, (coeElem it u1).1 = (coeElem it u2).1) :
    ∀ (pairs : List (List Char × JValue)) (s1 s2 : Score),
      (coerceMapPairs coeKey coeElem zk ze pairs s1).1 =
        (coerceMapPairs coeKey coeElem zk ze pairs s2).1 := by
  intro pairs
  induction pairs with
  | nil => intro s1 s2; simp [coerceMapPairs]
  | cons p rest ih =>
    intro s1 s2
    obtain ⟨k, v⟩ := p
    have hf := hk (.str k) s1 s2
    rcases hA : coeKey (.str k) s1 with ⟨r1, t1⟩
    rcases hB : coeKey (.str k) s2 with ⟨r2, t2⟩
    rw [hA, hB] at hf
    simp at hf
    subst hf
    cases r1 with
    | ok keyOpt =>
      have hg := he v t1 t2
      rcases hC : coeElem v t1 with ⟨q1, w1⟩
      rcases hD : coeElem v t2 with ⟨q2, w2⟩
      rw [hC, hD] at hg
      simp at hg
      subst hg
      cases q1 with
      | ok elemOpt =>
        have hr := ih w1 w2
        rcases hE : coerceMapPairs coeKey coeElem zk ze rest w1 with ⟨m1, x1⟩
        rcases hF : coerceMapPairs coeKey coeElem zk ze rest w2 with ⟨m2, x2⟩
        rw [hE, hF] at hr
        simp at hr
        subst hr
        cases m1 <;> simp [coerceMapPairs, hA, hB, hC, hD, hE, hF]
      | error e => simp [coerceMapPairs, hA, hB, hC, hD]
    | error e => simp [coerceMapPairs, hA, hB]

theorem coerce_fst_irrel (t : GoType) :
    (∀ (ord : ObjOrd) (v : JValue) (s1 s2 : Score),
        (coerceValue ord v t s1).1 = (coerceValue ord v t s2).1) ∧
    (∀ (ord : ObjOrd) (pairs : List (List Char × JValue)) (s1 s2 : Score),
        (coerceStructFields ord pairs t s1).1 = (coerceStructFields ord pairs t s2).1) := by
  induction t with
  | string =>
    refine ⟨fun ord v s1 s2 => ?_, fun ord pairs s1 s2 => ?_⟩
    · cases v <;> simp [coerceValue, typeMatchesValue]
    · simp [coerceStructFields]
  | tint b =>
    refine ⟨fun ord v s1 s2 => ?_, fun ord pairs s1 s2 => ?_⟩
    · have hf := coerceToInt_fst v (.tint b) s1 s2
      rcases hA : coerceToInt v (.tint b) s1 with ⟨r1, t1⟩
      rcases hB : coerceToInt v (.tint b) s2 with ⟨r2, t2⟩
      rw [hA, hB] at hf
      simp at hf
      subst hf
      cases v <;> cases r1 <;> simp [coerceValue, typeMatchesValue, hA, hB] <;> (split <;> simp)
    · simp [coerceStructFields]
  | tuint b =>
    refine ⟨fun ord v s1 s2 => ?_, fun ord pairs s1 s2 => ?_⟩
    · have hf := coerceToUint_fst v (.tuint b) s1 s2
      rcases hA : coerceToUint v (.tuint b) s1 with ⟨r1, t1⟩
      rcases hB : coerceToUint v (.tuint b) s2 with ⟨r2, t2⟩
      rw [hA, hB] at hf
      simp at hf
      subst hf
      cases v <;> cases r1 <;> simp [coerceValue, typeMatchesValue, hA, hB] <;> (split <;> simp)
    · simp [coerceStructFields]
  | tfloat b =>
    refine ⟨fun ord v s1 s2 => ?_, fun ord pairs s1 s2 => ?_⟩
    · have hf := coerceToFloat_fst v (.tfloat b) s1 s2
      rcases hA : coerceToFloat v (.tfloat b) s1 with ⟨r1, t1⟩
      rcases hB : coerceToFloat v (.tfloat b) s2 with ⟨r2, t2⟩
      rw [hA, hB] at hf
      simp at hf
      subst hf
      cases v <;> cases r1 <;> simp [coerceValue, typeMatchesValue, hA, hB] <;> (split <;> simp)
    · simp [coerceStructFields]
  | tbool =>
    refine ⟨fun ord v s1 s2 => ?_, fun ord pairs s1 s2 => ?_⟩
    · have hf := coerceToBool_fst v s1 s2
      rcases hA : coerceToBool v s1 with ⟨r1, t1⟩
      rcases hB : coerceToBool v s2 with ⟨r2, t2⟩
      rw [hA, hB] at hf
      simp at hf
      subst hf
      cases v <;> cases r1 <;> simp [coerceValue, typeMatchesValue, hA, hB] <;> (split <;> simp)
    · simp [coerceStructFields]
  | iface =>
    refine ⟨fun ord v s1 s2 => ?_, fun ord pairs s1 s2 => ?_⟩
    · cases v <;> simp [coerceValue]
    · simp [coerceStructFields]
  | ptr elem ih =>
    refine ⟨fun ord v s1 s2 => ?_, fun ord pairs s1 s2 => ?_⟩
    · have hf := ih.1 ord v s1 s2
      rcases hA : coerceValue ord v elem s1 with ⟨r1, t1⟩
      rcases hB : coerceValue ord v elem s2 with ⟨r2, t2⟩
      rw [hA, hB] at hf
      simp at hf
      subst hf
      cases r1 with
      | ok o =>
        cases o <;> cases v <;> simp [coerceValue, typeMatchesValue, hA, hB] <;> (split <;> simp)
      | error e =>
        cases v <;> simp [coerceValue, typeMatchesValue, hA, hB] <;> (split <;> simp)
    · simp [coerceStructFields]
  | slice elem ih =>
    refine ⟨fun ord v s1 s2 => ?_, fun ord pairs s1 s2 => ?_⟩
    · have hf := coerceElems_fst (fun it u => coerceValue ord it elem u) (zeroValue elem)
        (fun it u1 u2 => ih.1 ord it u1 u2) (sliceItems v) s1 s2
      rcases hA : coerceElems (fun it u => coerceValue ord it elem u) (zeroValue elem)
          (sliceItems v) s1 with ⟨r1, t1⟩
      rcases hB : coerceElems (fun it u => coerceValue ord it elem u) (zeroValue elem)
          (sliceItems v) s2 with ⟨r2, t2⟩
      rw [hA, hB] at hf
      simp at hf
      subst hf
      cases v <;> cases r1 <;> simp [coerceValue, typeMatchesValue, hA, hB] <;> (split <;> simp)
    · simp [coerceStructFields]
  | tarray n elem ih =>
    refine ⟨fun ord v s1 s2 => ?_, fun ord pairs s1 s2 => ?_⟩
    · have hf := coerceElems_fst (fun it u => coerceValue ord it elem u) (zeroValue elem)
        (fun it u1 u2 => ih.1 ord it u1 u2)
        ((sliceItems v).take (Nat.min n (sliceItems v).length)) s1 s2
      rcases hA : coerceElems (fun it u => coerceValue ord it elem u) (zeroValue elem)
          ((sliceItems v).take (Nat.min n (sliceItems v).length)) s1 with ⟨r1, t1⟩
      rcases hB : coerceElems (fun it u => coerceValue ord it elem u) (zeroValue elem)
          ((sliceItems v).take (Nat.min n (sliceItems v).length)) s2 with ⟨r2, t2⟩
      rw [hA, hB] at hf
      simp at hf
      subst hf
      cases v <;> cases r1 <;> simp [coerceValue, typeMatchesValue, hA, hB] <;> (split <;> simp)
    · simp [coerceStructFields]
  | tmap kt et ihk ihe =>
    refine ⟨fun ord v s1 s2 => ?_, fun ord pairs s1 s2 => ?_⟩
    · cases v with
      | obj ps =>
        have hf := coerceMapPairs_fst (fun kv u => coerceValue ord kv kt u)
          (fun ev u => coerceValue ord ev et u) (zeroValue kt) (zeroValue et)
          (fun it u1 u2 => ihk.1 ord it u1 u2) (fun it u1 u2 => ihe.1 ord it u1 u2)
          ps s1 s2
        rcases hA : coerceMapPairs (fun kv u => coerceValue ord kv kt u)
            (fun ev u => coerceValue ord ev et u) (zeroValue kt) (zeroValue et)
            ps s1 with ⟨r1, t1⟩
        rcases hB : coerceMapPairs (fun kv u => coerceValue ord kv kt u)
            (fun ev u => coerceValue ord ev et u) (zeroValue kt) (zeroValue et)
            ps s2 with ⟨r2, t2⟩
        rw [hA, hB] at hf
        simp at hf
        subst hf
        cases r1 <;> simp [coerceValue, hA, hB] <;> (split <;> simp)
      | null => simp [coerceValue]
      | bool b2 => simp [coerceValue, typeMatchesValue]
      | num q => simp [coerceValue, typeMatchesValue]
      | str sv => simp [coerceValue, typeMatchesValue]
      | arr xs => simp [coerceValue, typeMatchesValue]
    · simp [coerceStructFields]
  | tstruct fields ih =>
    refine ⟨fun ord v s1 s2 => ?_, fun ord pairs s1 s2 => ?_⟩
    · cases v with
      | obj ps =>
        have hf := ih.2 ord ps s1 s2
        simp [coerceValue, typeMatchesValue, hf]
      | null => simp [coerceValue]
      | bool b2 => simp [coerceValue, typeMatchesValue]
      | num q => simp [coerceValue, typeMatchesValue]
      | str sv => simp [coerceValue, typeMatchesValue]
      | arr xs => simp [coerceValue, typeMatchesValue]
    · simp [coerceStructFields]
  | fnil =>
    refine ⟨fun ord v s1 s2 => ?_, fun ord pairs s1 s2 => ?_⟩
    · cases v <;> simp [coerceValue, typeMatchesValue]
    · simp [coerceStructFields]
  | fcons fname tag ty rest ihty ihrest =>
    refine ⟨fun ord v s1 s2 => ?_, fun ord pairs s1 s2 => ?_⟩
    · cases v <;> simp [coerceValue, typeMatchesValue]
    · simp only [coerceStructFields]
      generalize resolveField ord pairs fname.data (tag.map String.data) = rres
      obtain ⟨mk, mv, fz⟩ := rres
      by_cases hmk : mk ≠ []
      · simp only [hmk, if_true]
        have hf := ihty.1 ord (mv.getD .null) (if fz = true then s1.AddFlag "FuzzyFieldMatch" 1 else s1)
          (if fz = true then s2.AddFlag "FuzzyFieldMatch" 1 else s2)
        rcases hA : coerceValue ord (mv.getD .null) ty
            (if fz = true then s1.AddFlag "FuzzyFieldMatch" 1 else s1) with ⟨r1, t1⟩
        rcases hB : coerceValue ord (mv.getD .null) ty
            (if fz = true then s2.AddFlag "FuzzyFieldMatch" 1 else s2) with ⟨r2, t2⟩
        rw [hA, hB] at hf
        simp at hf
        subst hf
        have hr := ihrest.2 ord pairs t1 t2
        rcases hC : coerceStructFields ord pairs rest t1 with ⟨v1, w1⟩
        rcases hD : coerceStructFields ord pairs rest t2 with ⟨v2, w2⟩
        rw [hC, hD] at hr
        simp at hr
        subst hr
        cases r1 <;> simp [hmk, hA, hB, hC, hD]
      · simp only [hmk, if_false]
        have hr := ihrest.2 ord pairs
          (if fz = true then s1.AddFlag "FuzzyFieldMatch" 1 else s1)
          (if fz = true then s2.AddFlag "FuzzyFieldMatch" 1 else s2)
        rcases hC : coerceStructFields ord pairs rest
            (if fz = true then s1.AddFlag "FuzzyFieldMatch" 1 else s1) with ⟨v1, w1⟩
        rcases hD : coerceStructFields ord pairs rest
            (if fz = true then s2.AddFlag "FuzzyFieldMatch" 1 else s2) with ⟨v2, w2⟩
        rw [hC, hD] at hr
        simp at hr
        subst hr
        simp [hC, hD]

/-- The orchestrator-facing corollary: the coercion outcome is independent
of the score state the coercion starts from. -/
theorem coerceValue_fst_irrel (ord : ObjOrd) (v : JValue) (t : GoType) (s1 s2 : Score) :
    (coerceValue ord v t s1).1 = (coerceValue ord v t s2).1 :=
  (coerce_fst_irrel t).1 ord v s1 s2

/-! ## C9: element failure aborts slice coercion -/

theorem coerceValue_iface_ok (ord : ObjOrd) (it : JValue) (s : Score) :
    ∃ o, (coerceValue ord it GoType.iface s).1 = Except.ok o := by
  cases it <;> exact ⟨_, rfl⟩

theorem coerceElems_error_at
    (coe : JValue → Score → Except CErr (Option GoVal) × Score) (z : GoVal)
    (hirrel : ∀ it u1 u2, (coe it u1).1 = (coe it u2).1) :
    ∀ (items : List JValue) (s : Score) (i : Nat) (hi : i < items.length) (e : CErr),
      (∀ j (hj : j < i), ∃ o, (coe (items.get ⟨j, Nat.lt_trans hj hi⟩) s).1 = Except.ok o) →
      (coe (items.get ⟨i, hi⟩) s).1 = Except.error e →
      (coerceElems coe z items s).1 = Except.error e := by
  intro items
  induction items with
  | nil => intro s i hi e _ _; exact absurd hi (by simp)
  | cons item rest ih =>
    intro s i hi e hok hfail
    cases i with
    | zero =>
      simp only [List.get] at hfail
      rcases hA : coe item s with ⟨r1, s1⟩
      rw [hA] at hfail
      simp at hfail
      subst hfail
      simp [coerceElems, hA]
    | succ k =>
      obtain ⟨o, h0⟩ := hok 0 (Nat.succ_pos k)
      simp only [List.get] at h0
      rcases hA : coe item s with ⟨r1, s1⟩
      rw [hA] at h0
      simp at h0
      subst h0
      have hfail1 : (coe (rest.get ⟨k, Nat.lt_of_succ_lt_succ hi⟩) s1).1 = Except.error e := by
        rw [hirrel _ s1 s]
        simpa using hfail
      have hok1 : ∀ j (hj : j < k),
          ∃ o2, (coe (rest.get ⟨j, Nat.lt_trans hj (Nat.lt_of_succ_lt_succ hi)⟩) s1).1 =
            Except.ok o2 := by
        intro j hj
        obtain ⟨o2, ho2⟩ := hok (j + 1) (Nat.succ_lt_succ hj)
        refine ⟨o2, ?_⟩
        rw [hirrel _ s1 s]
        simpa using ho2
      have htail := ih s1 k (Nat.lt_of_succ_lt_succ hi) e hok1 hfail1
      rcases hE : coerceElems coe z rest s1 with ⟨q, w⟩
      rw [hE] at htail
      simp at htail
      subst htail
      simp [coerceElems, hA, hE]

/-- Claim C9: coercing a value to a slice target fails as soon as any
element fails against the element type — if element `i` fails with error
`e` and all earlier elements succeed, the whole slice coercion returns
exactly that error and no partial sequence. -/
theorem sliceElementFailure_aborts
    (ord : ObjOrd) (v : JValue) (elemT : GoType) (s : Score) (i : Nat) (e : CErr)
    (hi : i < (sliceItems v).length)
    (hok : ∀ j (hj : j < i), ∃ o,
      (coerceValue ord ((sliceItems v).get ⟨j, Nat.lt_trans hj hi⟩) elemT s).1 = Except.ok o)
    (hfail : (coerceValue ord ((sliceItems v).get ⟨i, hi⟩) elemT s).1 = Except.error e) :
    (coerceValue ord v (GoType.slice elemT) s).1 = Except.error e := by
  have helems := coerceElems_error_at (fun it u => coerceValue ord it elemT u)
    (zeroValue elemT) (fun it u1 u2 => (coerce_fst_irrel elemT).1 ord it u1 u2)
    (sliceItems v) s i hi e hok hfail
  cases v with
  | null =>
    exfalso
    have h0 : i = 0 := by simp [sliceItems] at hi; omega
    subst h0
    simp [sliceItems, coerceValue] at hfail
  | arr xs =>
    by_cases hmt : typeMatchesValue (JValue.arr xs) (GoType.slice elemT) = true
    · exfalso
      have helem : elemT = GoType.iface := by
        cases elemT <;> simp_all [typeMatchesValue]
      subst helem
      obtain ⟨o, hox⟩ := coerceValue_iface_ok ord ((sliceItems (JValue.arr xs)).get ⟨i, hi⟩) s
      rw [hfail] at hox
      simp at hox
    · rw [Bool.not_eq_true] at hmt
      rcases hE : coerceElems (fun it u => coerceValue ord it elemT u) (zeroValue elemT)
          (sliceItems (JValue.arr xs)) s with ⟨q, w⟩
      rw [hE] at helems
      simp at helems
      subst helems
      simp [coerceValue, hmt, hE]
  | bool b =>
    rcases hE : coerceElems (fun it u => coerceValue ord it elemT u) (zeroValue elemT)
        (sliceItems (JValue.bool b)) s with ⟨q, w⟩
    rw [hE] at helems
    simp at helems
    subst helems
    simp [coerceValue, typeMatchesValue, hE]
  | num q0 =>
    rcases hE : coerceElems (fun it u => coerceValue ord it elemT u) (zeroValue elemT)
        (sliceItems (JValue.num q0)) s with ⟨q, w⟩
    rw [hE] at helems
    simp at helems
    subst helems
    simp [coerceValue, typeMatchesValue, hE]
  | str sv =>
    rcases hE : coerceElems (fun it u => coerceValue ord it elemT u) (zeroValue elemT)
        (sliceItems (JValue.str sv)) s with ⟨q, w⟩
    rw [hE] at helems
    simp at helems
    subst helems
    simp [coerceValue, typeMatchesValue, hE]
  | obj ps =>
    rcases hE : coerceElems (fun it u => coerceValue ord it elemT u) (zeroValue elemT)
        (sliceItems (JValue.obj ps)) s with ⟨q, w⟩
    rw [hE] at helems
    simp at helems
    subst helems
    simp [coerceValue, typeMatchesValue, hE]

theorem sliceElementFailure_witness :
    (coerceValue (fun ps => ps)
        (JValue.arr [JValue.num (QR.ofInt 1), JValue.str ['x']])
        (GoType.slice (GoType.tint 64)) Score.empty).1 = Except.error CErr.stringToInt := by
  refine sliceElementFailure_aborts (fun ps => ps)
    (JValue.arr [JValue.num (QR.ofInt 1), JValue.str ['x']])
    (GoType.tint 64) Score.empty 1 CErr.stringToInt (by decide) ?_ ?_
  · intro j hj
    have hj0 : j = 0 := by omega
    subst hj0
    exact ⟨_, rfl⟩
  · rfl

/-! ## C8: a failing struct field is zeroed and skipped -/

/-- Claim C8: in record (struct) coercion, when a resolved field's value
fails to coerce, that field is left at its zero value and the remaining
fields are still processed; the record coercion as a whole still returns
a struct value, never the per-field error. -/
theorem structFieldFailure_leaves_zero_and_continues
    (ord : ObjOrd) (pairs : List (List Char × JValue)) (fname : String)
    (tag : Option String) (ty rest : GoType) (s : Score) (e : CErr)
    (hres : (resolveField ord pairs fname.data (tag.map String.data)).1 ≠ [])
    (hfail : (coerceValue ord
        ((resolveField ord pairs fname.data (tag.map String.data)).2.1.getD JValue.null)
        ty s).1 = Except.error e) :
    (coerceStructFields ord pairs (GoType.fcons fname tag ty rest) s).1 =
        zeroValue ty :: (coerceStructFields ord pairs rest s).1 ∧
    coerceValue ord (JValue.obj pairs) (GoType.tstruct (GoType.fcons fname tag ty rest)) s =
      (Except.ok (some (GoVal.vstruct
          (coerceStructFields ord pairs (GoType.fcons fname tag ty rest) s).1)),
       (coerceStructFields ord pairs (GoType.fcons fname tag ty rest) s).2) := by
  constructor
  · rcases hR : resolveField ord pairs fname.data (tag.map String.data) with ⟨mk, mv, fz⟩
    rw [hR] at hres hfail
    simp only [ne_eq] at hres
    have hirr := (coerce_fst_irrel ty).1 ord (mv.getD JValue.null)
      (if fz = true then s.AddFlag "FuzzyFieldMatch" 1 else s) s
    rcases hA : coerceValue ord (mv.getD JValue.null) ty
        (if fz = true then s.AddFlag "FuzzyFieldMatch" 1 else s) with ⟨r1, t1⟩
    rw [hA] at hirr
    simp only at hirr
    rw [hfail] at hirr
    subst hirr
    simp [coerceStructFields, hR, hres, hA, (coerce_fst_irrel rest).2 ord pairs t1 s]
  · simp [coerceValue, typeMatchesValue]

/-! ## C6: fuzzy enum matching returns the earliest argmin under a threshold -/

theorem firstMin_le : ∀ (rs : List (List Char × Nat)) (acc : List Char × Nat),
    (firstMin acc rs).2 ≤ acc.2 ∧ ∀ x ∈ rs, (firstMin acc rs).2 ≤ x.2 := by
  intro rs
  induction rs with
  | nil => intro acc; exact ⟨Nat.le_refl _, by simp⟩
  | cons r rs2 ih =>
    intro acc
    simp only [firstMin]
    have hle1 : (if r.2 < acc.2 then r else acc).2 ≤ acc.2 := by split <;> omega
    have hle2 : (if r.2 < acc.2 then r else acc).2 ≤ r.2 := by split <;> omega
    obtain ⟨h1, h2⟩ := ih (if r.2 < acc.2 then r else acc)
    refine ⟨Nat.le_trans h1 hle1, ?_⟩
    intro x hx
    simp only [List.mem_cons] at hx
    rcases hx with rfl | hx
    · exact Nat.le_trans h1 hle2
    · exact h2 x hx

theorem firstMin_mem : ∀ (rs : List (List Char × Nat)) (acc : List Char × Nat),
    firstMin acc rs ∈ acc :: rs := by
  intro rs
  induction rs with
  | nil => intro acc; simp [firstMin]
  | cons r rs2 ih =>
    intro acc
    simp only [firstMin]
    by_cases hc : r.2 < acc.2
    · simp only [hc, if_true]
      have hm := ih r
      simp only [List.mem_cons] at hm ⊢
      tauto
    · simp only [hc, if_false]
      have hm := ih acc
      simp only [List.mem_cons] at hm ⊢
      tauto

theorem firstMin_find : ∀ (rs : List (List Char × Nat)) (acc : List Char × Nat),
    (acc :: rs).find? (fun x => x.2 ≤ (firstMin acc rs).2) = some (firstMin acc rs) := by
  intro rs
  induction rs with
  | nil => intro acc; simp [firstMin]
  | cons r rs2 ih =>
    intro acc
    simp only [firstMin]
    by_cases hc : r.2 < acc.2
    · simp only [hc, if_true]
      have hIH := ih r
      have hR := firstMin_le rs2 r
      have hacc : ¬ (acc.2 ≤ (firstMin r rs2).2) := by
        have := hR.1
        omega
      rw [List.find?_cons_of_neg _ (by simpa using hacc)]
      exact hIH
    · simp only [hc, if_false]
      have hIH := ih acc
      have hR := firstMin_le rs2 acc
      by_cases hacc : acc.2 ≤ (firstMin acc rs2).2
      · have h1 : (acc :: rs2).find? (fun x => x.2 ≤ (firstMin acc rs2).2) = some acc :=
          List.find?_cons_of_pos _ (by simpa using hacc)
        rw [hIH] at h1
        have hRacc : firstMin acc rs2 = acc := Option.some.inj h1
        rw [hRacc]
        rw [List.find?_cons_of_pos _ (by simp)]
      · have h2 : rs2.find? (fun x => x.2 ≤ (firstMin acc rs2).2) = some (firstMin acc rs2) := by
          rw [List.find?_cons_of_neg _ (by simpa using hacc)] at hIH
          exact hIH
        have hrfail : ¬ (r.2 ≤ (firstMin acc rs2).2) := by
          have := hR.1
          omega
        rw [List.find?_cons_of_neg _ (by simpa using hacc),
          List.find?_cons_of_neg _ (by simpa using hrfail)]
        exact h2

theorem find?_cons_self {α : Type} (p : α → Bool) (a : α) (t : List α) :
    List.find? p (a :: a :: t) = List.find? p (a :: t) := by
  cases h : p a <;> simp [List.find?, h]

theorem find?_congr_on {α : Type} (l : List α) (p q : α → Bool)
    (h : ∀ x ∈ l, p x = q x) : l.find? p = l.find? q := by
  induction l with
  | nil => rfl
  | cons a t ih =>
    have ha := h a (List.mem_cons_self a t)
    cases hp : p a
    · rw [List.find?_cons_of_neg _ (by simp [hp]),
        List.find?_cons_of_neg _ (by simp [← ha, hp])]
      exact ih (fun x hx => h x (List.mem_cons_of_mem a hx))
    · rw [List.find?_cons_of_pos _ (by simp [hp]),
        List.find?_cons_of_pos _ (by simp [← ha, hp])]

theorem argmin_spec (input : List Char) (e0 : List Char) (es : List (List Char)) :
    ∃ m b,
      ((e0 :: es).map (fun ev => stringDistance input ev)).min? = some m ∧
      (e0 :: es).find? (fun ev => stringDistance input ev == m) = some b ∧
      stringDistance input b = m ∧
      m = (firstMin (e0, stringDistance input e0)
            ((e0, stringDistance input e0) ::
              es.map (fun ev => (ev, stringDistance input ev)))).2 ∧
      b = (firstMin (e0, stringDistance input e0)
            ((e0, stringDistance input e0) ::
              es.map (fun ev => (ev, stringDistance input ev)))).1 := by
  set R := firstMin (e0, stringDistance input e0)
    ((e0, stringDistance input e0) :: es.map (fun ev => (ev, stringDistance input ev)))
    with hRdef
  have hle0 : R.2 ≤ stringDistance input e0 :=
    (firstMin_le ((e0, stringDistance input e0) ::
        es.map (fun ev => (ev, stringDistance input ev)))
      (e0, stringDistance input e0)).1
  have hlb : ∀ x ∈ (e0, stringDistance input e0) ::
      es.map (fun ev => (ev, stringDistance input ev)), R.2 ≤ x.2 :=
    (firstMin_le ((e0, stringDistance input e0) ::
        es.map (fun ev => (ev, stringDistance input ev)))
      (e0, stringDistance input e0)).2
  have hmem0 : R ∈ (e0, stringDistance input e0) :: (e0, stringDistance input e0) ::
      es.map (fun ev => (ev, stringDistance input ev)) :=
    firstMin_mem _ _
  have hmem : R ∈ (e0, stringDistance input e0) ::
      es.map (fun ev => (ev, stringDistance input ev)) := by
    rcases List.mem_cons.1 hmem0 with h | h
    · rw [h]; exact List.mem_cons_self _ _
    · exact h
  have hmemmap : R ∈ (e0 :: es).map (fun ev => (ev, stringDistance input ev)) := by
    rw [List.map_cons]; exact hmem
  obtain ⟨ev0, hev0mem, hgev0⟩ := List.mem_map.1 hmemmap
  have hb2 : R.1 = ev0 := by rw [← hgev0]
  have hm2 : R.2 = stringDistance input ev0 := by rw [← hgev0]
  have hlb2 : ∀ ev ∈ e0 :: es, R.2 ≤ stringDistance input ev := by
    intro ev hev
    rcases List.mem_cons.1 hev with rfl | hev2
    · exact hle0
    · exact hlb _ (List.mem_cons_of_mem _ (List.mem_map_of_mem _ hev2))
  refine ⟨R.2, R.1, ?_, ?_, ?_, rfl, rfl⟩
  · rw [List.min?_eq_some_iff']
    constructor
    · rw [hm2]
      exact List.mem_map_of_mem _ hev0mem
    · intro x hx
      obtain ⟨ev, hev, rfl⟩ := List.mem_map.1 hx
      exact hlb2 ev hev
  · have hfind := firstMin_find ((e0, stringDistance input e0) ::
        es.map (fun ev => (ev, stringDistance input ev))) (e0, stringDistance input e0)
    rw [find?_cons_self] at hfind
    have hfind2 : (((e0 :: es).map (fun ev => (ev, stringDistance input ev))).find?
        (fun x => x.2 ≤ R.2)) = some R := by
      rw [List.map_cons]; exact hfind
    rw [List.find?_map] at hfind2
    rw [Option.map_eq_some'] at hfind2
    obtain ⟨ev1, hF, hgev1⟩ := hfind2
    have hcong : List.find? (fun ev => stringDistance input ev == R.2) (e0 :: es) =
        List.find? ((fun x => x.2 ≤ R.2) ∘ (fun ev => (ev, stringDistance input ev)))
          (e0 :: es) := by
      apply find?_congr_on
      intro x hx
      show (stringDistance input x == R.2) = decide (stringDistance input x ≤ R.2)
      have hxlb := hlb2 x hx
      by_cases hx2 : stringDistance input x = R.2
      · rw [hx2]; simp
      · have h1 : (stringDistance input x == R.2) = false := by simp [hx2]
        have h2 : decide (stringDistance input x ≤ R.2) = false :=
          decide_eq_false (by omega)
        rw [h1, h2]
    rw [hcong, hF, ← hgev1]
  · rw [hb2]
    exact hm2.symm

/-- Claim C6: for a non-empty label list, `fuzzyMatchEnum` is characterized
by: let `m` be the minimum folded distance and `b` the earliest label
attaining it (original, unfolded form); the matcher returns `b` exactly
when `m ≤ (len(input) + len(b)) / 2` (Go byte lengths), and the empty
string (no match) otherwise. -/
theorem fuzzyMatchEnum_earliest_argmin (input : List Char)
    (enumValues : List (List Char)) (hne : enumValues ≠ []) :
    ∃ m b,
      (enumValues.map (fun ev => stringDistance input ev)).min? = some m ∧
      enumValues.find? (fun ev => stringDistance input ev == m) = some b ∧
      stringDistance input b = m ∧
      fuzzyMatchEnum input enumValues =
        (if m ≤ (goLen input + goLen b) / 2 then b else []) := by
  rcases enumValues with _ | ⟨e0, es⟩
  · exact absurd rfl hne
  obtain ⟨m, b, h1, h2, h3, hm, hb⟩ := argmin_spec input e0 es
  refine ⟨m, b, h1, h2, h3, ?_⟩
  rw [hm, hb]
  rfl

theorem fuzzyMatchEnum_witness :
    ∃ m b,
      ((["cd".data, "ab".data, "aa".data].map
          (fun ev => stringDistance "ab".data ev)).min? = some m) ∧
      (["cd".data, "ab".data, "aa".data].find?
          (fun ev => stringDistance "ab".data ev == m) = some b) ∧
      stringDistance "ab".data b = m ∧
      fuzzyMatchEnum "ab".data ["cd".data, "ab".data, "aa".data] =
        (if m ≤ (goLen "ab".data + goLen b) / 2 then b else []) :=
  fuzzyMatchEnum_earliest_argmin "ab".data ["cd".data, "ab".data, "aa".data] (by decide)

theorem structFieldFailure_witness :
    (coerceStructFields (fun ps => ps) [("age".data, JValue.str ['x'])]
        (GoType.fcons "Age" (some "age") (GoType.tint 64) GoType.fnil) Score.empty).1 =
        zeroValue (GoType.tint 64) ::
          (coerceStructFields (fun ps => ps) [("age".data, JValue.str ['x'])]
            GoType.fnil Score.empty).1 ∧
    coerceValue (fun ps => ps) (JValue.obj [("age".data, JValue.str ['x'])])
        (GoType.tstruct (GoType.fcons "Age" (some "age") (GoType.tint 64) GoType.fnil))
        Score.empty =
      (Except.ok (some (GoVal.vstruct
          (coerceStructFields (fun ps => ps) [("age".data, JValue.str ['x'])]
            (GoType.fcons "Age" (some "age") (GoType.tint 64) GoType.fnil) Score.empty).1)),
       (coerceStructFields (fun ps => ps) [("age".data, JValue.str ['x'])]
         (GoType.fcons "Age" (some "age") (GoType.tint 64) GoType.fnil) Score.empty).2) :=
  structFieldFailure_leaves_zero_and_continues (fun ps => ps)
    [("age".data, JValue.str ['x'])] "Age" (some "age") (GoType.tint 64) GoType.fnil
    Score.empty CErr.stringToInt (by decide) rfl

/-! ## C2 (amended): the orchestrator is deterministic up to map order,
and exactly determined once no object carries fold-equal duplicate keys -/

theorem find?_perm_of_unique {α : Type} (l1 l2 : List α) (p : α → Bool)
    (hperm : l1.Perm l2)
    (huniq : ∀ a ∈ l1, ∀ b ∈ l1, p a → p b → a = b) :
    l1.find? p = l2.find? p := by
  cases h1 : l1.find? p with
  | none =>
    have hno : ∀ x ∈ l1, ¬ (p x = true) := List.find?_eq_none.1 h1
    cases h2 : l2.find? p with
    | none => rfl
    | some y =>
      have hy := List.find?_some h2
      have hymem := List.mem_of_find?_eq_some h2
      exact absurd hy (hno y (hperm.mem_iff.mpr hymem))
  | some x =>
    have hx := List.find?_some h1
    have hxmem := List.mem_of_find?_eq_some h1
    cases h2 : l2.find? p with
    | none =>
      have hno : ∀ z ∈ l2, ¬ (p z = true) := List.find?_eq_none.1 h2
      exact absurd hx (hno x (hperm.mem_iff.mp hxmem))
    | some y =>
      have hy := List.find?_some h2
      have hymem := List.mem_of_find?_eq_some h2
      rw [huniq x hxmem y (hperm.mem_iff.mpr hymem) hx hy]

theorem resolveField_ord_eq (ord1 ord2 : ObjOrd)
    (pairs : List (List Char × JValue)) (n : List Char) (tg : Option (List Char))
    (h1 : (ord1 pairs).Perm pairs) (h2 : (ord2 pairs).Perm pairs)
    (huniq : List.Pairwise (fun a b => goEqualFold a.1 b.1 = false) pairs) :
    resolveField ord1 pairs n tg = resolveField ord2 pairs n tg := by
  have hsymm : Symmetric (fun a b : List Char × JValue => goEqualFold a.1 b.1 = false) := by
    intro x y h
    simp [goEqualFold] at h ⊢
    exact fun hh => h hh.symm
  have hfind : (ord1 pairs).find? (fun p => goEqualFold p.1 n) =
      (ord2 pairs).find? (fun p => goEqualFold p.1 n) := by
    apply find?_perm_of_unique _ _ _ (h1.trans h2.symm)
    intro a ha b hb hpa hpb
    have ha2 : a ∈ pairs := h1.subset ha
    have hb2 : b ∈ pairs := h1.subset hb
    by_contra hne
    have hff := huniq.forall hsymm ha2 hb2 hne
    have hab : goEqualFold a.1 b.1 = true := by
      simp [goEqualFold] at hpa hpb ⊢
      rw [hpa, hpb]
    rw [hab] at hff
    exact Bool.noConfusion hff
  simp only [resolveField]
  rw [hfind]

theorem lookupPairs_mem : ∀ (ps : List (List Char × JValue)) (k : List Char) (v : JValue),
    lookupPairs ps k = some v → (k, v) ∈ ps := by
  intro ps
  induction ps with
  | nil => intro k v h; simp [lookupPairs] at h
  | cons p rest ih =>
    intro k v h
    obtain ⟨pk, pv⟩ := p
    simp only [lookupPairs] at h
    split at h
    · rename_i hk
      injection h with h
      subst h
      subst hk
      exact List.mem_cons_self _ _
    · exact List.mem_cons_of_mem _ (ih k v h)

theorem resolveField_val_mem (ord : ObjOrd) (pairs : List (List Char × JValue))
    (n : List Char) (tg : Option (List Char))
    (hp : (ord pairs).Perm pairs) (v : JValue)
    (h : (resolveField ord pairs n tg).2.1 = some v) :
    ∃ k, (k, v) ∈ pairs := by
  have hname : ∀ (h2 : (match lookupPairs pairs n with
      | some w => (n, some w, false)
      | none =>
        match (ord pairs).find? (fun p => goEqualFold p.1 n) with
        | some p => (p.1, some p.2, true)
        | none => (([] : List Char), none, false) :
        List Char × Option JValue × Bool).2.1 = some v),
      ∃ k, (k, v) ∈ pairs := by
    intro h2
    cases hL : lookupPairs pairs n with
    | some w =>
      rw [hL] at h2
      simp at h2
      subst h2
      exact ⟨n, lookupPairs_mem pairs n _ hL⟩
    | none =>
      rw [hL] at h2
      cases hF : (ord pairs).find? (fun p => goEqualFold p.1 n) with
      | none => rw [hF] at h2; simp at h2
      | some q =>
        rw [hF] at h2
        simp at h2
        subst h2
        have hmem : q ∈ pairs := hp.subset (List.mem_of_find?_eq_some hF)
        exact ⟨q.1, by simpa using hmem⟩
  rcases tg with _ | tg0
  · simp only [resolveField] at h
    exact hname h
  · simp only [resolveField] at h
    cases hS : goSplit ',' tg0 with
    | nil => exact absurd hS (goSplit_ne_nil ',' tg0)
    | cons p0 ptail =>
      rw [hS] at h
      by_cases hcond : p0 ≠ [] ∧ p0 ≠ "-".data
      · cases hL : lookupPairs pairs p0 with
        | some w =>
          simp [hcond.1, hcond.2, hL] at h
          subst h
          exact ⟨p0, lookupPairs_mem pairs p0 _ hL⟩
        | none =>
          simp only [hL] at h
          exact hname (by
            simpa [hcond.1, hcond.2] using h)
      · rcases not_and_or.mp hcond with hc | hc
        · have hc2 : p0 = [] := not_not.mp hc
          subst hc2
          exact hname (by simpa using h)
        · have hc2 : p0 = "-".data := not_not.mp hc
          subst hc2
          exact hname (by simpa using h)

theorem coerceElems_ord_congr
    (c1 c2 : JValue → Score → Except CErr (Option GoVal) × Score) (z : GoVal) :
    ∀ (items : List JValue),
      (∀ it ∈ items, ∀ u, c1 it u = c2 it u) →
      ∀ s, coerceElems c1 z items s = coerceElems c2 z items s := by
  intro items
  induction items with
  | nil => intro _ s; rfl
  | cons item rest ih =>
    intro hall s
    have ih2 := ih (fun it h u => hall it (List.mem_cons_of_mem _ h) u)
    simp only [coerceElems]
    rw [hall item (List.mem_cons_self _ _) s]
    rcases hA : c2 item s with ⟨r1, s1⟩
    cases r1 <;> simp [ih2]

theorem coerceMapPairs_ord_congr
    (c1k c2k c1e c2e : JValue → Score → Except CErr (Option GoVal) × Score)
    (zk ze : GoVal) :
    ∀ (pairs : List (List Char × JValue)),
      (∀ p ∈ pairs, ∀ u, c1k (JValue.str p.1) u = c2k (JValue.str p.1) u) →
      (∀ p ∈ pairs, ∀ u, c1e p.2 u = c2e p.2 u) →
      ∀ s, coerceMapPairs c1k c1e zk ze pairs s = coerceMapPairs c2k c2e zk ze pairs s := by
  intro pairs
  induction pairs with
  | nil => intro _ _ s; rfl
  | cons p rest ih =>
    intro hk he s
    obtain ⟨k, v⟩ := p
    have ih2 := ih (fun q h u => hk q (List.mem_cons_of_mem _ h) u)
      (fun q h u => he q (List.mem_cons_of_mem _ h) u)
    simp only [coerceMapPairs]
    rw [hk (k, v) (List.mem_cons_self _ _) s]
    rcases hA : c2k (JValue.str k) s with ⟨r1, s1⟩
    cases r1 with
    | error e => simp
    | ok keyOpt =>
      simp only []
      rw [he (k, v) (List.mem_cons_self _ _) s1]
      rcases hB : c2e v s1 with ⟨r2, s2⟩
      cases r2 <;> simp [ih2]

theorem coerce_ord_eq (ord1 ord2 : ObjOrd)
    (hp1 : ∀ ps, (ord1 ps).Perm ps) (hp2 : ∀ ps, (ord2 ps).Perm ps) (t : GoType) :
    (∀ v, FoldUniq v → ∀ s, coerceValue ord1 v t s = coerceValue ord2 v t s) ∧
    (∀ pairs, List.Pairwise (fun a b => goEqualFold a.1 b.1 = false) pairs →
      (∀ p ∈ pairs, FoldUniq p.2) →
      ∀ s, coerceStructFields ord1 pairs t s = coerceStructFields ord2 pairs t s) := by
  induction t with
  | string => exact ⟨fun v _ s => by cases v <;> rfl, fun pairs _ _ s => rfl⟩
  | tint b => exact ⟨fun v _ s => by cases v <;> rfl, fun pairs _ _ s => rfl⟩
  | tuint b => exact ⟨fun v _ s => by cases v <;> rfl, fun pairs _ _ s => rfl⟩
  | tfloat b => exact ⟨fun v _ s => by cases v <;> rfl, fun pairs _ _ s => rfl⟩
  | tbool => exact ⟨fun v _ s => by cases v <;> rfl, fun pairs _ _ s => rfl⟩
  | iface => exact ⟨fun v _ s => by cases v <;> rfl, fun pairs _ _ s => rfl⟩
  | ptr elem ih =>
    refine ⟨fun v hv s => ?_, fun pairs _ _ s => rfl⟩
    cases v <;> first | rfl | (simp only [coerceValue]; rw [ih.1 _ hv s])
  | slice elem ih =>
    refine ⟨fun v hv s => ?_, fun pairs _ _ s => rfl⟩
    have hfu : ∀ it ∈ sliceItems v, FoldUniq it := by
      cases hv with
      | arr xs hxs => intro it hit; exact hxs it (by simpa [sliceItems] using hit)
      | null => intro it hit; simp [sliceItems] at hit; subst hit; exact FoldUniq.null
      | bool b => intro it hit; simp [sliceItems] at hit; subst hit; exact FoldUniq.bool b
      | num q => intro it hit; simp [sliceItems] at hit; subst hit; exact FoldUniq.num q
      | str s2 => intro it hit; simp [sliceItems] at hit; subst hit; exact FoldUniq.str s2
      | obj ps hpw hfv =>
        intro it hit; simp [sliceItems] at hit; subst hit; exact FoldUniq.obj ps hpw hfv
    have hce := coerceElems_ord_congr (fun it u => coerceValue ord1 it elem u)
      (fun it u => coerceValue ord2 it elem u) (zeroValue elem) (sliceItems v)
      (fun it hit u => ih.1 it (hfu it hit) u) s
    cases v <;> first | rfl | (simp only [coerceValue]; rw [hce])
  | tarray n elem ih =>
    refine ⟨fun v hv s => ?_, fun pairs _ _ s => rfl⟩
    have hfu : ∀ it ∈ sliceItems v, FoldUniq it := by
      cases hv with
      | arr xs hxs => intro it hit; exact hxs it (by simpa [sliceItems] using hit)
      | null => intro it hit; simp [sliceItems] at hit; subst hit; exact FoldUniq.null
      | bool b => intro it hit; simp [sliceItems] at hit; subst hit; exact FoldUniq.bool b
      | num q => intro it hit; simp [sliceItems] at hit; subst hit; exact FoldUniq.num q
      | str s2 => intro it hit; simp [sliceItems] at hit; subst hit; exact FoldUniq.str s2
      | obj ps hpw hfv =>
        intro it hit; simp [sliceItems] at hit; subst hit; exact FoldUniq.obj ps hpw hfv
    have hce := coerceElems_ord_congr (fun it u => coerceValue ord1 it elem u)
      (fun it u => coerceValue ord2 it elem u) (zeroValue elem)
      ((sliceItems v).take (Nat.min n (sliceItems v).length))
      (fun it hit u => ih.1 it (hfu it (List.mem_of_mem_take hit)) u) s
    cases v <;> first | rfl | (simp only [coerceValue]; rw [hce])
  | tmap kt et ihk ihe =>
    refine ⟨fun v hv s => ?_, fun pairs _ _ s => rfl⟩
    cases hv with
    | null => rfl
    | bool b => rfl
    | num q => rfl
    | str s2 => rfl
    | arr xs hxs => rfl
    | obj ps hpw hfv =>
      have hcmp := coerceMapPairs_ord_congr
        (fun kv u => coerceValue ord1 kv kt u) (fun kv u => coerceValue ord2 kv kt u)
        (fun ev u => coerceValue ord1 ev et u) (fun ev u => coerceValue ord2 ev et u)
        (zeroValue kt) (zeroValue et) ps
        (fun p _ u => ihk.1 (JValue.str p.1) (FoldUniq.str p.1) u)
        (fun p hpm u => ihe.1 p.2 (hfv p hpm) u) s
      simp only [coerceValue]
      rw [hcmp]
  | tstruct fields ihf =>
    refine ⟨fun v hv s => ?_, fun pairs _ _ s => rfl⟩
    cases hv with
    | null => rfl
    | bool b => rfl
    | num q => rfl
    | str s2 => rfl
    | arr xs hxs => rfl
    | obj ps hpw hfv =>
      simp only [coerceValue]
      rw [ihf.2 ps hpw hfv s]
  | fnil => exact ⟨fun v _ s => by cases v <;> rfl, fun pairs _ _ s => rfl⟩
  | fcons fname tag ty rest ihty ihr =>
    refine ⟨fun v _ s => by cases v <;> rfl, fun pairs hpw hfv s => ?_⟩
    have hres : resolveField ord1 pairs fname.data (tag.map String.data) =
        resolveField ord2 pairs fname.data (tag.map String.data) :=
      resolveField_ord_eq ord1 ord2 pairs _ _ (hp1 pairs) (hp2 pairs) hpw
    have hfuV : FoldUniq
        ((resolveField ord2 pairs fname.data (tag.map String.data)).2.1.getD JValue.null) := by
      cases hmv : (resolveField ord2 pairs fname.data (tag.map String.data)).2.1 with
      | none => exact FoldUniq.null
      | some w =>
        obtain ⟨k, hk⟩ := resolveField_val_mem ord2 pairs _ _ (hp2 pairs) w hmv
        exact hfv (k, w) hk
    have hrest := ihr.2 pairs hpw hfv
    have hty := ihty.1 _ hfuV
    simp only [coerceStructFields]
    rw [hres]
    simp only [hty, hrest]

theorem Coerce_ord_eq (ord1 ord2 : ObjOrd)
    (hp1 : ∀ ps, (ord1 ps).Perm ps) (hp2 : ∀ ps, (ord2 ps).Perm ps)
    (raw : JValue) (t : GoType) (hfu : FoldUniq raw) :
    Coerce ord1 raw t = Coerce ord2 raw t := by
  cases raw with
  | null => rfl
  | bool b => exact (coerce_ord_eq ord1 ord2 hp1 hp2 t).1 _ hfu _
  | num q => exact (coerce_ord_eq ord1 ord2 hp1 hp2 t).1 _ hfu _
  | str s2 => exact (coerce_ord_eq ord1 ord2 hp1 hp2 t).1 _ hfu _
  | arr xs => exact (coerce_ord_eq ord1 ord2 hp1 hp2 t).1 _ hfu _
  | obj ps => exact (coerce_ord_eq ord1 ord2 hp1 hp2 t).1 _ hfu _

theorem parseLoop_ord_eq (ord1 ord2 : ObjOrd)
    (hp1 : ∀ ps, (ord1 ps).Perm ps) (hp2 : ∀ ps, (ord2 ps).Perm ps)
    (strict : Bool) (t : GoType) :
    ∀ (cands : List JSONCandidate) (best : Option (Option GoVal × Score))
      (bestErr : Option PErr),
      (∀ c ∈ cands, ∀ v, parseCandidateValue strict c = some v → FoldUniq v) →
      parseLoop ord1 strict t cands best bestErr =
        parseLoop ord2 strict t cands best bestErr := by
  intro cands
  induction cands with
  | nil => intro best bestErr _; rfl
  | cons c rest ih =>
    intro best bestErr hall
    have ih2 : ∀ best2 bestErr2, parseLoop ord1 strict t rest best2 bestErr2 =
        parseLoop ord2 strict t rest best2 bestErr2 :=
      fun b e => ih b e (fun c2 h v hv => hall c2 (List.mem_cons_of_mem _ h) v hv)
    cases hU : jsonUnmarshal c.JSON with
    | some raw =>
      have hfu : FoldUniq raw :=
        hall c (List.mem_cons_self _ _) raw (by simp [parseCandidateValue, hU])
      have hco := Coerce_ord_eq ord1 ord2 hp1 hp2 raw t hfu
      simp only [parseLoop, hU]
      rw [hco]
      simp only [ih2]
    | none =>
      cases strict with
      | true =>
        simp only [parseLoop, hU]
        simp [ih2]
      | false =>
        cases hU2 : jsonUnmarshal (fixJSON c.JSON) with
        | some raw =>
          have hfu : FoldUniq raw :=
            hall c (List.mem_cons_self _ _) raw (by simp [parseCandidateValue, hU, hU2])
          have hco := Coerce_ord_eq ord1 ord2 hp1 hp2 raw t hfu
          simp only [parseLoop, hU, hU2]
          simp only [Bool.false_eq_true, if_false]
          rw [hco]
          simp only [ih2]
        | none =>
          simp only [parseLoop, hU, hU2]
          simp [ih2]

/-- Claim C2 (amended): the orchestrator's only order-dependence is the
case-insensitive field fallback, which ranges over a Go map in randomized
order.  For any two admissible enumeration orders (permutations of the
stored pairs), runs on identical inputs coincide whenever no object in any
candidate's parsed value (strict or post-repair) carries two keys that are
equal under case folding. -/
theorem orchestrator_deterministic_of_foldUniq
    (ord1 ord2 : ObjOrd)
    (hp1 : ∀ ps, (ord1 ps).Perm ps) (hp2 : ∀ ps, (ord2 ps).Perm ps)
    (strict : Bool) (input : List Char) (t : GoType)
    (hall : ∀ cands, ExtractJSON input = some cands →
      ∀ c ∈ cands, ∀ v, parseCandidateValue strict c = some v → FoldUniq v) :
    ParseWithScore ord1 strict input t = ParseWithScore ord2 strict input t := by
  simp only [ParseWithScore]
  cases hE : ExtractJSON input with
  | none => rfl
  | some cands =>
    have hpl := parseLoop_ord_eq ord1 ord2 hp1 hp2 strict t cands none none
      (hall cands hE)
    simp [hpl]

theorem orchestrator_deterministic_witness :
    ParseWithScore (fun ps => ps) false "\x7b\x22name\x22:\x22x\x22\x7d".data TName =
      ParseWithScore (fun ps => List.reverse ps) false
        "\x7b\x22name\x22:\x22x\x22\x7d".data TName := by
  refine orchestrator_deterministic_of_foldUniq (fun ps => ps) (fun ps => List.reverse ps)
    (fun ps => List.Perm.refl ps) (fun ps => List.reverse_perm ps)
    false "\x7b\x22name\x22:\x22x\x22\x7d".data TName ?_
  intro cands hE c hc v hv
  rw [show ExtractJSON "\x7b\x22name\x22:\x22x\x22\x7d".data =
      some [⟨"\x7b\x22name\x22:\x22x\x22\x7d".data, 0⟩] from rfl] at hE
  injection hE with hE
  subst hE
  simp at hc
  subst hc
  rw [show parseCandidateValue false ⟨"\x7b\x22name\x22:\x22x\x22\x7d".data, 0⟩ =
      some (JValue.obj [("name".data, JValue.str "x".data)]) from rfl] at hv
  injection hv with hv
  subst hv
  refine FoldUniq.obj _ (by simp) ?_
  intro p hp
  simp at hp
  subst hp
  exact FoldUniq.str _


/-! ## C5: the whole-input probe of ExtractJSON -/

theorem digit_not_space (c : Char) (hd : c.isDigit = true) : goIsSpace c = false := by
  simp [Char.isDigit] at hd
  obtain ⟨h1, h2⟩ := hd
  rw [UInt32.le_def, BitVec.le_def] at h1 h2
  simp [UInt32.toNat] at h1 h2
  simp [goIsSpace, asciiWs, Char.ext_iff, UInt32.ext_iff, BitVec.le_def,
    UInt32.le_def, UInt32.lt_def, BitVec.lt_def, UInt32.size, UInt32.toNat]
  omega

theorem asciiWs_goIsSpace (c : Char) (h : asciiWs c = true) : goIsSpace c = true := by
  simp [goIsSpace, h]

theorem dropWhile_head_false {p : Char → Bool} :
    ∀ {l c t}, List.dropWhile p l = c :: t → p c = false := by
  intro l
  induction l with
  | nil => intro c t h; simp at h
  | cons a r ih =>
    intro c t h
    by_cases hp : p a = true
    · rw [List.dropWhile_cons_of_pos hp] at h
      exact ih h
    · rw [List.dropWhile_cons_of_neg hp] at h
      injection h with h1 h2
      subst h1
      exact Bool.not_eq_true _ |>.mp hp

theorem dropWhile_append_all {p : Char → Bool} :
    ∀ (u v : List Char), (∀ c ∈ u, p c = true) →
      List.dropWhile p (u ++ v) = List.dropWhile p v := by
  intro u
  induction u with
  | nil => intro v _; rfl
  | cons a r ih =>
    intro v hall
    have ha := hall a (List.mem_cons_self _ _)
    simp only [List.cons_append, List.dropWhile_cons_of_pos ha]
    exact ih v (fun c hc => hall c (List.mem_cons_of_mem _ hc))

theorem parseStringBodyF_suffix :
    ∀ (n : Nat) (l s1 rest : List Char), parseStringBodyF n l = some (s1, rest) →
      (dquote :: rest) <:+ l := by
  intro n
  induction n with
  | zero => intro l s1 rest h; simp [parseStringBodyF] at h
  | succ n ih =>
    intro l s1 rest h
    cases l with
    | nil => simp [parseStringBodyF] at h
    | cons c r =>
      simp only [parseStringBodyF] at h
      by_cases h1c : c = dquote
      · rw [if_pos h1c] at h
        simp at h
        obtain ⟨hA, hB⟩ := h
        subst hB
        subst h1c
        exact List.suffix_refl _
      · rw [if_neg h1c] at h
        by_cases h2c : c = bslash
        · rw [if_pos h2c] at h
          cases r with
          | nil => exact Option.noConfusion h
          | cons e r2 =>
            simp only [] at h
            by_cases e1 : e = dquote
            · rw [if_pos e1] at h
              rcases Option.map_eq_some'.mp h with ⟨p, hrec, hmap⟩
              rcases p with ⟨p1, p2⟩
              simp at hmap
              obtain ⟨hmap1, hmap2⟩ := hmap
              subst hmap2
              exact (ih _ _ _ hrec).trans (by simp [List.suffix_cons_iff])
            · rw [if_neg e1] at h
              by_cases e2 : e = bslash
              · rw [if_pos e2] at h
                rcases Option.map_eq_some'.mp h with ⟨p, hrec, hmap⟩
                rcases p with ⟨p1, p2⟩
                simp at hmap
                obtain ⟨hmap1, hmap2⟩ := hmap
                subst hmap2
                exact (ih _ _ _ hrec).trans (by simp [List.suffix_cons_iff])
              · rw [if_neg e2] at h
                by_cases e3 : e = '/'
                · rw [if_pos e3] at h
                  rcases Option.map_eq_some'.mp h with ⟨p, hrec, hmap⟩
                  rcases p with ⟨p1, p2⟩
                  simp at hmap
                  obtain ⟨hmap1, hmap2⟩ := hmap
                  subst hmap2
                  exact (ih _ _ _ hrec).trans (by simp [List.suffix_cons_iff])
                · rw [if_neg e3] at h
                  by_cases e4 : e = 'b'
                  · rw [if_pos e4] at h
                    rcases Option.map_eq_some'.mp h with ⟨p, hrec, hmap⟩
                    rcases p with ⟨p1, p2⟩
                    simp at hmap
                    obtain ⟨hmap1, hmap2⟩ := hmap
                    subst hmap2
                    exact (ih _ _ _ hrec).trans (by simp [List.suffix_cons_iff])
                  · rw [if_neg e4] at h
                    by_cases e5 : e = 'f'
                    · rw [if_pos e5] at h
                      rcases Option.map_eq_some'.mp h with ⟨p, hrec, hmap⟩
                      rcases p with ⟨p1, p2⟩
                      simp at hmap
                      obtain ⟨hmap1, hmap2⟩ := hmap
                      subst hmap2
                      exact (ih _ _ _ hrec).trans (by simp [List.suffix_cons_iff])
                    · rw [if_neg e5] at h
                      by_cases e6 : e = 'n'
                      · rw [if_pos e6] at h
                        rcases Option.map_eq_some'.mp h with ⟨p, hrec, hmap⟩
                        rcases p with ⟨p1, p2⟩
                        simp at hmap
                        obtain ⟨hmap1, hmap2⟩ := hmap
                        subst hmap2
                        exact (ih _ _ _ hrec).trans (by simp [List.suffix_cons_iff])
                      · rw [if_neg e6] at h
                        by_cases e7 : e = 'r'
                        · rw [if_pos e7] at h
                          rcases Option.map_eq_some'.mp h with ⟨p, hrec, hmap⟩
                          rcases p with ⟨p1, p2⟩
                          simp at hmap
                          obtain ⟨hmap1, hmap2⟩ := hmap
                          subst hmap2
                          exact (ih _ _ _ hrec).trans (by simp [List.suffix_cons_iff])
                        · rw [if_neg e7] at h
                          by_cases e8 : e = 't'
                          · rw [if_pos e8] at h
                            rcases Option.map_eq_some'.mp h with ⟨p, hrec, hmap⟩
                            rcases p with ⟨p1, p2⟩
                            simp at hmap
                            obtain ⟨hmap1, hmap2⟩ := hmap
                            subst hmap2
                            exact (ih _ _ _ hrec).trans (by simp [List.suffix_cons_iff])
                          · rw [if_neg e8] at h
                            by_cases e9 : e = 'u'
                            · rw [if_pos e9] at h
                              rcases r2 with _ | ⟨a1, _ | ⟨a2, _ | ⟨a3, _ | ⟨a4, r3⟩⟩⟩⟩
                              · exact Option.noConfusion h
                              · exact Option.noConfusion h
                              · exact Option.noConfusion h
                              · exact Option.noConfusion h
                              · simp only [] at h
                                cases hx1 : hexVal a1 with
                                | none => rw [hx1] at h; exact Option.noConfusion h
                                | some aa =>
                                  rw [hx1] at h
                                  cases hx2 : hexVal a2 with
                                  | none => rw [hx2] at h; exact Option.noConfusion h
                                  | some bb =>
                                    rw [hx2] at h
                                    cases hx3 : hexVal a3 with
                                    | none => rw [hx3] at h; exact Option.noConfusion h
                                    | some cc =>
                                      rw [hx3] at h
                                      cases hx4 : hexVal a4 with
                                      | none => rw [hx4] at h; exact Option.noConfusion h
                                      | some dd =>
                                        rw [hx4] at h
                                        simp only [] at h
                                        by_cases hr1 : (decide (55296 ≤ ((aa * 16 + bb) * 16 + cc) * 16 + dd) && decide (((aa * 16 + bb) * 16 + cc) * 16 + dd ≤ 56319)) = true
                                        · rw [if_pos hr1] at h
                                          rcases r3 with _ | ⟨b1, _ | ⟨b2, _ | ⟨b3, _ | ⟨b4, _ | ⟨b5, _ | ⟨b6, r4⟩⟩⟩⟩⟩⟩
                                          · simp only [] at h
                                            rcases Option.map_eq_some'.mp h with ⟨p, hrec, hmap⟩
                                            rcases p with ⟨p1, p2⟩
                                            simp at hmap
                                            obtain ⟨hmap1, hmap2⟩ := hmap
                                            subst hmap2
                                            exact (ih _ _ _ hrec).trans (by simp [List.suffix_cons_iff])
                                          · simp only [] at h
                                            rcases Option.map_eq_some'.mp h with ⟨p, hrec, hmap⟩
                                            rcases p with ⟨p1, p2⟩
                                            simp at hmap
                                            obtain ⟨hmap1, hmap2⟩ := hmap
                                            subst hmap2
                                            exact (ih _ _ _ hrec).trans (by simp [List.suffix_cons_iff])
                                          · simp only [] at h
                                            rcases Option.map_eq_some'.mp h with ⟨p, hrec, hmap⟩
                                            rcases p with ⟨p1, p2⟩
                                            simp at hmap
                                            obtain ⟨hmap1, hmap2⟩ := hmap
                                            subst hmap2
                                            exact (ih _ _ _ hrec).trans (by simp [List.suffix_cons_iff])
                                          · simp only [] at h
                                            rcases Option.map_eq_some'.mp h with ⟨p, hrec, hmap⟩
                                            rcases p with ⟨p1, p2⟩
                                            simp at hmap
                                            obtain ⟨hmap1, hmap2⟩ := hmap
                                            subst hmap2
                                            exact (ih _ _ _ hrec).trans (by simp [List.suffix_cons_iff])
                                          · simp only [] at h
                                            rcases Option.map_eq_some'.mp h with ⟨p, hrec, hmap⟩
                                            rcases p with ⟨p1, p2⟩
                                            simp at hmap
                                            obtain ⟨hmap1, hmap2⟩ := hmap
                                            subst hmap2
                                            exact (ih _ _ _ hrec).trans (by simp [List.suffix_cons_iff])
                                          · simp only [] at h
                                            rcases Option.map_eq_some'.mp h with ⟨p, hrec, hmap⟩
                                            rcases p with ⟨p1, p2⟩
                                            simp at hmap
                                            obtain ⟨hmap1, hmap2⟩ := hmap
                                            subst hmap2
                                            exact (ih _ _ _ hrec).trans (by simp [List.suffix_cons_iff])
                                          · simp only [] at h
                                            by_cases hr2 : (decide (b1 = bslash) && decide (b2 = 'u')) = true
                                            · rw [if_pos hr2] at h
                                              cases hk1 : hexVal b3 with
                                              | none => rw [hk1] at h; simp only [] at h
                                                        rcases Option.map_eq_some'.mp h with ⟨p, hrec, hmap⟩
                                                        rcases p with ⟨p1, p2⟩
                                                        simp at hmap
                                                        obtain ⟨hmap1, hmap2⟩ := hmap
                                                        subst hmap2
                                                        exact (ih _ _ _ hrec).trans (by simp [List.suffix_cons_iff])
                                              | some ka =>
                                                rw [hk1] at h
                                                cases hk2 : hexVal b4 with
                                                | none => rw [hk2] at h; simp only [] at h
                                                          rcases Option.map_eq_some'.mp h with ⟨p, hrec, hmap⟩
                                                          rcases p with ⟨p1, p2⟩
                                                          simp at hmap
                                                          obtain ⟨hmap1, hmap2⟩ := hmap
                                                          subst hmap2
                                                          exact (ih _ _ _ hrec).trans (by simp [List.suffix_cons_iff])
                                                | some kb =>
                                                  rw [hk2] at h
                                                  cases hk3 : hexVal b5 with
                                                  | none => rw [hk3] at h; simp only [] at h
                                                            rcases Option.map_eq_some'.mp h with ⟨p, hrec, hmap⟩
                                                            rcases p with ⟨p1, p2⟩
                                                            simp at hmap
                                                            obtain ⟨hmap1, hmap2⟩ := hmap
                                                            subst hmap2
                                                            exact (ih _ _ _ hrec).trans (by simp [List.suffix_cons_iff])
                                                  | some kc =>
                                                    rw [hk3] at h
                                                    cases hk4 : hexVal b6 with
                                                    | none => rw [hk4] at h; simp only [] at h
                                                              rcases Option.map_eq_some'.mp h with ⟨p, hrec, hmap⟩
                                                              rcases p with ⟨p1, p2⟩
                                                              simp at hmap
                                                              obtain ⟨hmap1, hmap2⟩ := hmap
                                                              subst hmap2
                                                              exact (ih _ _ _ hrec).trans (by simp [List.suffix_cons_iff])
                                                    | some kd =>
                                                      rw [hk4] at h
                                                      simp only [] at h
                                                      split at h
                                                      · rcases Option.map_eq_some'.mp h with ⟨p, hrec, hmap⟩
                                                        rcases p with ⟨p1, p2⟩
                                                        simp at hmap
                                                        obtain ⟨hmap1, hmap2⟩ := hmap
                                                        subst hmap2
                                                        exact (ih _ _ _ hrec).trans (by simp [List.suffix_cons_iff])
                                                      · rcases Option.map_eq_some'.mp h with ⟨p, hrec, hmap⟩
                                                        rcases p with ⟨p1, p2⟩
                                                        simp at hmap
                                                        obtain ⟨hmap1, hmap2⟩ := hmap
                                                        subst hmap2
                                                        exact (ih _ _ _ hrec).trans (by simp [List.suffix_cons_iff])
                                            · rw [if_neg hr2] at h
                                              rcases Option.map_eq_some'.mp h with ⟨p, hrec, hmap⟩
                                              rcases p with ⟨p1, p2⟩
                                              simp at hmap
                                              obtain ⟨hmap1, hmap2⟩ := hmap
                                              subst hmap2
                                              exact (ih _ _ _ hrec).trans (by simp [List.suffix_cons_iff])
                                        · rw [if_neg hr1] at h
                                          split at h
                                          · rcases Option.map_eq_some'.mp h with ⟨p, hrec, hmap⟩
                                            rcases p with ⟨p1, p2⟩
                                            simp at hmap
                                            obtain ⟨hmap1, hmap2⟩ := hmap
                                            subst hmap2
                                            exact (ih _ _ _ hrec).trans (by simp [List.suffix_cons_iff])
                                          · rcases Option.map_eq_some'.mp h with ⟨p, hrec, hmap⟩
                                            rcases p with ⟨p1, p2⟩
                                            simp at hmap
                                            obtain ⟨hmap1, hmap2⟩ := hmap
                                            subst hmap2
                                            exact (ih _ _ _ hrec).trans (by simp [List.suffix_cons_iff])
                            · rw [if_neg e9] at h
                              exact Option.noConfusion h
        · rw [if_neg h2c] at h
          by_cases h3c : c.val < 0x20
          · rw [if_pos h3c] at h
            exact Option.noConfusion h
          · rw [if_neg h3c] at h
            rcases Option.map_eq_some'.mp h with ⟨p, hrec, hmap⟩
            rcases p with ⟨p1, p2⟩
            simp at hmap
            obtain ⟨hmap1, hmap2⟩ := hmap
            subst hmap2
            exact (ih _ _ _ hrec).trans (by simp [List.suffix_cons_iff])

theorem parseNumLit_decompose (l : List Char) : parseNumLit l =
    (match numInt (numSign l).2 with
     | none => none
     | some (ip, r1) =>
       match numFrac r1 with
       | none => none
       | some (fp, r2) =>
         match numExp r2 with
         | none => none
         | some (e, r3) =>
           let mant : QR := (QR.ofInt (digitsVal ip)).add (QR.mk0 (digitsVal fp) (10 ^ fp.length))
           some ((if (numSign l).1 then mant.neg else mant).scale10 e, r3)) := by
  cases l with
  | nil => rfl
  | cons c r =>
    by_cases hm : c = '-'
    · subst hm
      rfl
    · simp only [parseNumLit, numSign, numInt, numFrac, numExp, if_neg hm]

theorem digit_before_dropWhile (p : Char → Bool) :
    ∀ (l : List Char), l.takeWhile p ≠ [] →
      ∃ c, p c = true ∧ (c :: l.dropWhile p) <:+ l := by
  intro l
  induction l with
  | nil => intro h; simp at h
  | cons a t ih =>
    intro h
    by_cases hp : p a = true
    · rw [List.dropWhile_cons_of_pos hp]
      by_cases ht : t.takeWhile p = []
      · have hdt : t.dropWhile p = t := by
          cases t with
          | nil => rfl
          | cons b t2 =>
            have hb : p b = false := by
              by_contra hb2
              rw [Bool.not_eq_false] at hb2
              rw [List.takeWhile_cons_of_pos hb2] at ht
              simp at ht
            rw [List.dropWhile_cons_of_neg (by simp [hb])]
        rw [hdt]
        exact ⟨a, hp, List.suffix_refl _⟩
      · obtain ⟨c, hc, hsuf⟩ := ih ht
        exact ⟨c, hc, hsuf.trans (List.suffix_cons a t)⟩
    · rw [List.takeWhile_cons_of_neg hp] at h
      exact absurd rfl h

theorem numInt_suffix (l1 ip r1 : List Char) (h : numInt l1 = some (ip, r1)) :
    ∃ c, c.isDigit = true ∧ (c :: r1) <:+ l1 := by
  cases l1 with
  | nil => simp [numInt] at h
  | cons c r =>
    by_cases h0 : c = '0'
    · subst h0
      simp [numInt] at h
      obtain ⟨hA, hB⟩ := h
      subst hB
      exact ⟨'0', by decide, List.suffix_refl _⟩
    · by_cases hd : c.isDigit = true
      · simp only [numInt, if_neg h0, if_pos hd] at h
        simp at h
        obtain ⟨hA, hB⟩ := h
        subst hB
        have hTW : (List.takeWhile Char.isDigit (c :: r)) ≠ [] := by
          rw [List.takeWhile_cons_of_pos hd]
          simp
        obtain ⟨cd, hcd, hsfx⟩ := digit_before_dropWhile Char.isDigit (c :: r) hTW
        rw [List.dropWhile_cons_of_pos hd] at hsfx
        exact ⟨cd, hcd, hsfx⟩
      · simp [numInt, h0, hd] at h

theorem numFrac_rest (r1 fp r2 : List Char) (h : numFrac r1 = some (fp, r2)) :
    r2 = r1 ∨ ∃ c, c.isDigit = true ∧ (c :: r2) <:+ r1 := by
  cases r1 with
  | nil =>
    simp [numFrac] at h
    obtain ⟨hA, hB⟩ := h
    exact Or.inl hB
  | cons c r =>
    by_cases hdot : c = '.'
    · subst hdot
      simp only [numFrac, if_pos rfl] at h
      by_cases hfd : (r.takeWhile Char.isDigit).length = 0
      · rw [if_pos hfd] at h
        exact Option.noConfusion h
      · rw [if_neg hfd] at h
        simp at h
        obtain ⟨hA, hB⟩ := h
        right
        have hTW : r.takeWhile Char.isDigit ≠ [] := by
          intro hh
          rw [hh] at hfd
          simp at hfd
        obtain ⟨cd, hcd, hsfx⟩ := digit_before_dropWhile Char.isDigit r hTW
        subst hB
        exact ⟨cd, hcd, hsfx.trans (List.suffix_cons '.' r)⟩
    · simp [numFrac, hdot] at h
      obtain ⟨hA, hB⟩ := h
      exact Or.inl hB.symm

theorem numExp_rest (r2 : List Char) (e : Int) (r3 : List Char)
    (h : numExp r2 = some (e, r3)) :
    r3 = r2 ∨ ∃ c, c.isDigit = true ∧ (c :: r3) <:+ r2 := by
  cases r2 with
  | nil =>
    simp [numExp] at h
    obtain ⟨hA, hB⟩ := h
    exact Or.inl hB
  | cons c r =>
    by_cases he : (c = 'e' || c = 'E') = true
    · simp only [numExp, if_pos he] at h
      cases r with
      | nil => simp at h
      | cons d rr =>
        simp only [] at h
        by_cases hdm : d = '-'
        · rw [if_pos hdm] at h
          simp only [] at h
          by_cases hed : (rr.takeWhile Char.isDigit).length = 0
          · rw [if_pos hed] at h
            exact Option.noConfusion h
          · rw [if_neg hed] at h
            simp at h
            obtain ⟨hA, hB⟩ := h
            right
            have hTW : rr.takeWhile Char.isDigit ≠ [] := by
              intro hh; rw [hh] at hed; simp at hed
            obtain ⟨cd, hcd, hsfx⟩ := digit_before_dropWhile Char.isDigit rr hTW
            subst hB
            exact ⟨cd, hcd, (hsfx.trans (List.suffix_cons d rr)).trans (List.suffix_cons c (d :: rr))⟩
        · rw [if_neg hdm] at h
          by_cases hdp : d = '+'
          · rw [if_pos hdp] at h
            simp only [] at h
            by_cases hed : (rr.takeWhile Char.isDigit).length = 0
            · rw [if_pos hed] at h
              exact Option.noConfusion h
            · rw [if_neg hed] at h
              simp at h
              obtain ⟨hA, hB⟩ := h
              right
              have hTW : rr.takeWhile Char.isDigit ≠ [] := by
                intro hh; rw [hh] at hed; simp at hed
              obtain ⟨cd, hcd, hsfx⟩ := digit_before_dropWhile Char.isDigit rr hTW
              subst hB
              exact ⟨cd, hcd, (hsfx.trans (List.suffix_cons d rr)).trans (List.suffix_cons c (d :: rr))⟩
          · rw [if_neg hdp] at h
            simp only [] at h
            by_cases hed : ((d :: rr).takeWhile Char.isDigit).length = 0
            · rw [if_pos hed] at h
              exact Option.noConfusion h
            · rw [if_neg hed] at h
              simp at h
              obtain ⟨hA, hB⟩ := h
              right
              have hTW : (d :: rr).takeWhile Char.isDigit ≠ [] := by
                intro hh; rw [hh] at hed; simp at hed
              obtain ⟨cd, hcd, hsfx⟩ := digit_before_dropWhile Char.isDigit (d :: rr) hTW
              subst hB
              exact ⟨cd, hcd, hsfx.trans (List.suffix_cons c (d :: rr))⟩
    · simp [numExp, he] at h
      obtain ⟨hA, hB⟩ := h
      exact Or.inl hB.symm

theorem numSign_suffix (l : List Char) : (numSign l).2 <:+ l := by
  cases l with
  | nil => exact List.suffix_refl _
  | cons c r =>
    by_cases hm : c = '-'
    · have hx : numSign (c :: r) = (true, r) := by simp [numSign, hm]
      rw [hx]
      exact List.suffix_cons _ _
    · have hx : numSign (c :: r) = (false, c :: r) := by simp [numSign, hm]
      rw [hx]

theorem parseNumLit_suffix (l : List Char) (q : QR) (rest : List Char)
    (h : parseNumLit l = some (q, rest)) :
    ∃ c, c.isDigit = true ∧ (c :: rest) <:+ l := by
  rw [parseNumLit_decompose] at h
  cases hni : numInt (numSign l).2 with
  | none => rw [hni] at h; exact Option.noConfusion h
  | some pr =>
    rw [hni] at h
    rcases pr with ⟨ip, r1⟩
    simp only [] at h
    cases hnf : numFrac r1 with
    | none => rw [hnf] at h; exact Option.noConfusion h
    | some pr2 =>
      rw [hnf] at h
      rcases pr2 with ⟨fp, r2⟩
      simp only [] at h
      cases hne : numExp r2 with
      | none => rw [hne] at h; exact Option.noConfusion h
      | some pr3 =>
        rw [hne] at h
        rcases pr3 with ⟨e2, r3⟩
        simp only [] at h
        simp at h
        obtain ⟨hA, hB⟩ := h
        subst hB
        obtain ⟨cd, hcd, hs1⟩ := numInt_suffix _ _ _ hni
        have hr1 : r1 <:+ (numSign l).2 := (List.suffix_cons cd r1).trans hs1
        obtain ⟨c2, hc2, hs2⟩ : ∃ c2, c2.isDigit = true ∧ (c2 :: r2) <:+ (numSign l).2 := by
          rcases numFrac_rest _ _ _ hnf with hEq | ⟨cf, hcf, hsf⟩
          · subst hEq
            exact ⟨cd, hcd, hs1⟩
          · exact ⟨cf, hcf, hsf.trans hr1⟩
        have hr2 : r2 <:+ (numSign l).2 := (List.suffix_cons c2 r2).trans hs2
        obtain ⟨c3, hc3, hs3⟩ : ∃ c3, c3.isDigit = true ∧ (c3 :: r3) <:+ (numSign l).2 := by
          rcases numExp_rest _ _ _ hne with hEq | ⟨ce, hce, hse⟩
          · subst hEq
            exact ⟨c2, hc2, hs2⟩
          · exact ⟨ce, hce, hse.trans hr2⟩
        exact ⟨c3, hc3, hs3.trans (numSign_suffix l)⟩

theorem parseNumLit_head (c : Char) (r : List Char) (q : QR) (rest : List Char)
    (h : parseNumLit (c :: r) = some (q, rest)) : c = '-' ∨ c.isDigit = true := by
  by_cases hm : c = '-'
  · exact Or.inl hm
  · right
    rw [parseNumLit_decompose] at h
    have hs : numSign (c :: r) = (false, c :: r) := by simp [numSign, hm]
    rw [hs] at h
    simp only [] at h
    cases hni : numInt (c :: r) with
    | none => rw [hni] at h; exact Option.noConfusion h
    | some pr =>
      by_cases h0 : c = '0'
      · subst h0
        decide
      · by_cases hd : c.isDigit = true
        · exact hd
        · exfalso
          simp [numInt, h0, hd] at hni

theorem skipWs_suffix (r : List Char) : skipWs r <:+ r :=
  List.dropWhile_suffix asciiWs

theorem parseJ_suffix :
    ∀ (n : Nat) (mode : PMode) (l : List Char) (res : PRes) (rest : List Char),
      parseJ n mode l = some (res, rest) →
      ∃ c, goIsSpace c = false ∧ (c :: rest) <:+ l := by
  intro n
  induction n with
  | zero => intro mode l res rest h; simp [parseJ] at h
  | succ n ih =>
    intro mode l res rest h
    cases mode with
    | val =>
      cases l with
      | nil => simp [parseJ] at h
      | cons c r =>
        simp only [parseJ] at h
        by_cases hc1 : c = lbrace
        · rw [if_pos hc1] at h
          cases hsw : skipWs r with
          | nil => rw [hsw] at h; exact Option.noConfusion h
          | cons c1 r2 =>
            rw [hsw] at h
            simp only [] at h
            have hsufsw : (c1 :: r2) <:+ r := by
              have h1 : skipWs r <:+ r := skipWs_suffix r
              rw [hsw] at h1
              exact h1
            by_cases hc2 : c1 = rbrace
            · rw [if_pos hc2] at h
              simp at h
              obtain ⟨hA, hB⟩ := h
              subst hB
              refine ⟨rbrace, by decide, ?_⟩
              subst hc2
              exact hsufsw.trans (List.suffix_cons c r)
            · rw [if_neg hc2] at h
              cases hrec : parseJ n PMode.members (c1 :: r2) with
              | none => rw [hrec] at h; exact Option.noConfusion h
              | some pr =>
                rw [hrec] at h
                rcases pr with ⟨pres, prest⟩
                cases pres with
                | ms pairs =>
                  simp only [] at h
                  simp at h
                  obtain ⟨hA, hB⟩ := h
                  subst hB
                  obtain ⟨cx, hcx, hsfx⟩ := ih PMode.members (c1 :: r2) _ _ hrec
                  exact ⟨cx, hcx, (hsfx.trans hsufsw).trans (List.suffix_cons c r)⟩
                | v x => exact Option.noConfusion h
                | es xs => exact Option.noConfusion h
        · rw [if_neg hc1] at h
          by_cases hc2 : c = lbrack
          · rw [if_pos hc2] at h
            cases hsw : skipWs r with
            | nil => rw [hsw] at h; exact Option.noConfusion h
            | cons c1 r2 =>
              rw [hsw] at h
              simp only [] at h
              have hsufsw : (c1 :: r2) <:+ r := by
                have h1 : skipWs r <:+ r := skipWs_suffix r
                rw [hsw] at h1
                exact h1
              by_cases hc3 : c1 = rbrack
              · rw [if_pos hc3] at h
                simp at h
                obtain ⟨hA, hB⟩ := h
                subst hB
                refine ⟨rbrack, by decide, ?_⟩
                subst hc3
                exact hsufsw.trans (List.suffix_cons c r)
              · rw [if_neg hc3] at h
                cases hrec : parseJ n PMode.elems (c1 :: r2) with
                | none => rw [hrec] at h; exact Option.noConfusion h
                | some pr =>
                  rw [hrec] at h
                  rcases pr with ⟨pres, prest⟩
                  cases pres with
                  | es xs =>
                    simp only [] at h
                    simp at h
                    obtain ⟨hA, hB⟩ := h
                    subst hB
                    obtain ⟨cx, hcx, hsfx⟩ := ih PMode.elems (c1 :: r2) _ _ hrec
                    exact ⟨cx, hcx, (hsfx.trans hsufsw).trans (List.suffix_cons c r)⟩
                  | v x => exact Option.noConfusion h
                  | ms xs => exact Option.noConfusion h
          · rw [if_neg hc2] at h
            by_cases hc3 : c = dquote
            · rw [if_pos hc3] at h
              cases hsb : parseStringBody r with
              | none => rw [hsb] at h; exact Option.noConfusion h
              | some pr =>
                rw [hsb] at h
                rcases pr with ⟨s2, rest2⟩
                simp only [] at h
                simp at h
                obtain ⟨hA, hB⟩ := h
                subst hB
                refine ⟨dquote, by decide, ?_⟩
                exact (parseStringBodyF_suffix _ _ _ _ hsb).trans (List.suffix_cons c r)
            · rw [if_neg hc3] at h
              by_cases hc4 : c = 't'
              · rw [if_pos hc4] at h
                split at h
                · rename_i x1 x2
                  simp at h
                  obtain ⟨hA, hB⟩ := h
                  subst hB
                  refine ⟨'e', by decide, ?_⟩
                  simp [List.suffix_cons_iff]
                · exact Option.noConfusion h
              · rw [if_neg hc4] at h
                by_cases hc5 : c = 'f'
                · rw [if_pos hc5] at h
                  split at h
                  · rename_i x1 x2
                    simp at h
                    obtain ⟨hA, hB⟩ := h
                    subst hB
                    refine ⟨'e', by decide, ?_⟩
                    simp [List.suffix_cons_iff]
                  · exact Option.noConfusion h
                · rw [if_neg hc5] at h
                  by_cases hc6 : c = 'n'
                  · rw [if_pos hc6] at h
                    split at h
                    · rename_i x1 x2
                      simp at h
                      obtain ⟨hA, hB⟩ := h
                      subst hB
                      refine ⟨'l', by decide, ?_⟩
                      simp [List.suffix_cons_iff]
                    · exact Option.noConfusion h
                  · rw [if_neg hc6] at h
                    cases hnl : parseNumLit (c :: r) with
                    | none => rw [hnl] at h; exact Option.noConfusion h
                    | some pr =>
                      rw [hnl] at h
                      rcases pr with ⟨qq, rest2⟩
                      simp only [] at h
                      simp at h
                      obtain ⟨hA, hB⟩ := h
                      subst hB
                      obtain ⟨cd, hdig, hsfx⟩ := parseNumLit_suffix _ _ _ hnl
                      exact ⟨cd, digit_not_space cd hdig, hsfx⟩
    | elems =>
      simp only [parseJ] at h
      cases hv : parseJ n PMode.val l with
      | none => rw [hv] at h; exact Option.noConfusion h
      | some pr =>
        rw [hv] at h
        rcases pr with ⟨pres, r⟩
        cases pres with
        | es xs => exact Option.noConfusion h
        | ms xs => exact Option.noConfusion h
        | v v0 =>
          simp only [] at h
          obtain ⟨cv, hcv, hsv⟩ := ih PMode.val l _ _ hv
          have hrl : r <:+ l := (List.suffix_cons cv r).trans hsv
          cases hsw : skipWs r with
          | nil => rw [hsw] at h; exact Option.noConfusion h
          | cons c2 r2 =>
            rw [hsw] at h
            simp only [] at h
            have hswr : (c2 :: r2) <:+ r := by
              have h1 : skipWs r <:+ r := skipWs_suffix r
              rw [hsw] at h1
              exact h1
            by_cases hcc : c2 = ','
            · rw [if_pos hcc] at h
              cases hrec : parseJ n PMode.elems (skipWs r2) with
              | none => rw [hrec] at h; exact Option.noConfusion h
              | some pr2 =>
                rw [hrec] at h
                rcases pr2 with ⟨pres2, rest3⟩
                cases pres2 with
                | es xs =>
                  simp only [] at h
                  simp at h
                  obtain ⟨hA, hB⟩ := h
                  subst hB
                  obtain ⟨cx, hcx, hsfx⟩ := ih PMode.elems (skipWs r2) _ _ hrec
                  refine ⟨cx, hcx, ?_⟩
                  have t1 : skipWs r2 <:+ r2 := skipWs_suffix r2
                  exact (((hsfx.trans t1).trans ((List.suffix_cons c2 r2).trans hswr))).trans hrl
                | v x => exact Option.noConfusion h
                | ms xs => exact Option.noConfusion h
            · rw [if_neg hcc] at h
              by_cases hcb : c2 = rbrack
              · rw [if_pos hcb] at h
                simp at h
                obtain ⟨hA, hB⟩ := h
                subst hB
                refine ⟨rbrack, by decide, ?_⟩
                subst hcb
                exact hswr.trans hrl
              · rw [if_neg hcb] at h
                exact Option.noConfusion h
    | members =>
      cases l with
      | nil => simp [parseJ] at h
      | cons c r =>
        simp only [parseJ] at h
        by_cases hc : c = dquote
        · rw [if_pos hc] at h
          cases hsb : parseStringBody r with
          | none => rw [hsb] at h; exact Option.noConfusion h
          | some pr =>
            rw [hsb] at h
            rcases pr with ⟨k, r2⟩
            simp only [] at h
            have hr2 : r2 <:+ r := (List.suffix_cons dquote r2).trans
              (parseStringBodyF_suffix _ _ _ _ hsb)
            cases hsw : skipWs r2 with
            | nil => rw [hsw] at h; exact Option.noConfusion h
            | cons c2 r3 =>
              rw [hsw] at h
              simp only [] at h
              have hsw2 : (c2 :: r3) <:+ r2 := by
                have h1 : skipWs r2 <:+ r2 := skipWs_suffix r2
                rw [hsw] at h1
                exact h1
              by_cases hcol : c2 = ':'
              · rw [if_pos hcol] at h
                cases hval : parseJ n PMode.val (skipWs r3) with
                | none => rw [hval] at h; exact Option.noConfusion h
                | some pr2 =>
                  rw [hval] at h
                  rcases pr2 with ⟨pres2, r4⟩
                  cases pres2 with
                  | es xs => exact Option.noConfusion h
                  | ms xs => exact Option.noConfusion h
                  | v v0 =>
                    simp only [] at h
                    obtain ⟨cv, hcv, hsv⟩ := ih PMode.val (skipWs r3) _ _ hval
                    have hr4 : r4 <:+ r3 := ((List.suffix_cons cv r4).trans hsv).trans
                      (skipWs_suffix r3)
                    cases hsw4 : skipWs r4 with
                    | nil => rw [hsw4] at h; exact Option.noConfusion h
                    | cons c4 r5 =>
                      rw [hsw4] at h
                      simp only [] at h
                      have hsw5 : (c4 :: r5) <:+ r4 := by
                        have h1 : skipWs r4 <:+ r4 := skipWs_suffix r4
                        rw [hsw4] at h1
                        exact h1
                      by_cases hcm : c4 = ','
                      · rw [if_pos hcm] at h
                        cases hrec : parseJ n PMode.members (skipWs r5) with
                        | none => rw [hrec] at h; exact Option.noConfusion h
                        | some pr3 =>
                          rw [hrec] at h
                          rcases pr3 with ⟨pres3, rest6⟩
                          cases pres3 with
                          | v x => exact Option.noConfusion h
                          | es xs => exact Option.noConfusion h
                          | ms pairs =>
                            simp only [] at h
                            simp at h
                            obtain ⟨hA, hB⟩ := h
                            subst hB
                            obtain ⟨cx, hcx, hsfx⟩ := ih PMode.members (skipWs r5) _ _ hrec
                            refine ⟨cx, hcx, ?_⟩
                            have t1 : skipWs r5 <:+ r5 := skipWs_suffix r5
                            have t2 : r5 <:+ r4 := (List.suffix_cons c4 r5).trans hsw5
                            have t3 : r3 <:+ r2 := (List.suffix_cons c2 r3).trans hsw2
                            exact ((((((hsfx.trans t1).trans t2).trans hr4).trans t3).trans
                              hr2).trans (List.suffix_cons c r))
                      · rw [if_neg hcm] at h
                        by_cases hcb : c4 = rbrace
                        · rw [if_pos hcb] at h
                          simp at h
                          obtain ⟨hA, hB⟩ := h
                          subst hB
                          refine ⟨rbrace, by decide, ?_⟩
                          subst hcb
                          have t3 : r3 <:+ r2 := (List.suffix_cons c2 r3).trans hsw2
                          exact (((hsw5.trans hr4).trans t3).trans hr2).trans
                            (List.suffix_cons c r)
                        · rw [if_neg hcb] at h
                          exact Option.noConfusion h
              · rw [if_neg hcol] at h
                exact Option.noConfusion h
        · rw [if_neg hc] at h
          exact Option.noConfusion h

theorem parseJ_val_head (n : Nat) (c : Char) (r : List Char) (x : PRes × List Char)
    (h : parseJ n PMode.val (c :: r) = some x) : goIsSpace c = false := by
  cases n with
  | zero => simp [parseJ] at h
  | succ m =>
  simp only [parseJ] at h
  by_cases hc1 : c = lbrace
  · subst hc1; decide
  · rw [if_neg hc1] at h
    by_cases hc2 : c = lbrack
    · subst hc2; decide
    · rw [if_neg hc2] at h
      by_cases hc3 : c = dquote
      · subst hc3; decide
      · rw [if_neg hc3] at h
        by_cases hc4 : c = 't'
        · subst hc4; decide
        · rw [if_neg hc4] at h
          by_cases hc5 : c = 'f'
          · subst hc5; decide
          · rw [if_neg hc5] at h
            by_cases hc6 : c = 'n'
            · subst hc6; decide
            · rw [if_neg hc6] at h
              cases hnl : parseNumLit (c :: r) with
              | none => rw [hnl] at h; exact Option.noConfusion h
              | some pr =>
                rcases parseNumLit_head c r pr.1 pr.2 (by rw [hnl]) with hminus | hdig
                · subst hminus; decide
                · exact digit_not_space c hdig

theorem strIndexOf_cons (a : Char) (t n : List Char) :
    strIndexOf (a :: t) n = if n.isPrefixOf (a :: t) then 0 else 1 + strIndexOf t n := rfl

theorem strIndexOf_ws : ∀ (A : List Char), (∀ a ∈ A, asciiWs a = true) →
    ∀ (tail : List Char) (c0 : Char) (M2 : List Char), asciiWs c0 = false →
      (c0 :: M2).isPrefixOf tail = true →
      strIndexOf (A ++ tail) (c0 :: M2) = A.length := by
  intro A
  induction A with
  | nil =>
    intro _ tail c0 M2 hc0 hpref
    rw [List.nil_append]
    unfold strIndexOf
    rw [if_pos hpref]
    rfl
  | cons a A2 ih =>
    intro hall tail c0 M2 hc0 hpref
    have ha := hall a (List.mem_cons_self _ _)
    have hnea : c0 ≠ a := by
      intro hh
      rw [hh, ha] at hc0
      exact Bool.noConfusion hc0
    have hne : ((c0 :: M2).isPrefixOf (a :: (A2 ++ tail))) = false := by
      simp [List.isPrefixOf, hnea]
    rw [List.cons_append, strIndexOf_cons, if_neg (by simp [hne])]
    rw [ih (fun z hz => hall z (List.mem_cons_of_mem _ hz)) tail c0 M2 hc0 hpref]
    simp [Nat.add_comm]

theorem trimBack_decompose (x : List Char) :
    x = (x.reverse.dropWhile asciiWs).reverse ++ (x.reverse.takeWhile asciiWs).reverse ∧
    ∀ c ∈ (x.reverse.takeWhile asciiWs).reverse, asciiWs c = true := by
  constructor
  · calc x = x.reverse.reverse := (List.reverse_reverse x).symm
      _ = (x.reverse.takeWhile asciiWs ++ x.reverse.dropWhile asciiWs).reverse := by
          rw [List.takeWhile_append_dropWhile]
      _ = (x.reverse.dropWhile asciiWs).reverse ++ (x.reverse.takeWhile asciiWs).reverse := by
          rw [List.reverse_append]
  · intro c hc
    exact List.mem_takeWhile_imp (by simpa using hc)

/-- Claim C5: when the ASCII-whitespace-trimmed input is already strictly
valid JSON, `ExtractJSON` returns exactly one candidate — the trimmed
content at its position in the original input (the length of the leading
whitespace run) — and no fenced-block or balanced-bracket probing happens. -/
theorem extractJSON_whole_input (input : List Char)
    (hvalid : isValidJSON (asciiTrim input) = true) :
    ExtractJSON input =
      some [⟨asciiTrim input, (input.takeWhile asciiWs).length⟩] := by
  -- decompose the input around the trimmed content
  have hvalid0 := hvalid
  obtain ⟨hxdec, hEws⟩ := trimBack_decompose (input.dropWhile asciiWs)
  have hMdef : asciiTrim input =
      ((input.dropWhile asciiWs).reverse.dropWhile asciiWs).reverse := rfl
  have hinput : input = input.takeWhile asciiWs ++ (asciiTrim input ++
      ((input.dropWhile asciiWs).reverse.takeWhile asciiWs).reverse) := by
    rw [hMdef, ← hxdec, List.takeWhile_append_dropWhile]
  -- the trimmed content is nonempty
  cases hM : asciiTrim input with
  | nil =>
    exfalso
    rw [hM] at hvalid
    exact absurd hvalid (by decide)
  | cons c0 M2 =>
    -- its head is not ASCII whitespace
    have hxcons : input.dropWhile asciiWs = c0 :: (M2 ++
        ((input.dropWhile asciiWs).reverse.takeWhile asciiWs).reverse) := by
      conv_lhs => rw [hxdec]
      rw [← hMdef, hM]
      simp
    have hc0 : asciiWs c0 = false := dropWhile_head_false hxcons
    -- unpack validity into a parse
    have hskip : skipWs (asciiTrim input) = asciiTrim input := by
      rw [hM]
      exact List.dropWhile_cons_of_neg (by simp [hc0])
    simp only [isValidJSON, jsonUnmarshal, hskip] at hvalid
    cases hP : parseJ (2 * (asciiTrim input).length + 4) PMode.val (asciiTrim input) with
    | none => rw [hP] at hvalid; simp at hvalid
    | some pr =>
      rw [hP] at hvalid
      rcases pr with ⟨pres, prest⟩
      cases pres with
      | es xs => simp at hvalid
      | ms xs => simp at hvalid
      | v v0 =>
        simp only [] at hvalid
        by_cases hrest : skipWs prest = []
        · -- the parser consumed everything except trailing JSON whitespace,
          -- and the trimmed content has no trailing whitespace at all
          have hrestall : ∀ cc ∈ prest, asciiWs cc = true :=
            List.dropWhile_eq_nil_iff.1 hrest
          obtain ⟨cl, hcl, hsfx⟩ :=
            parseJ_suffix (2 * (asciiTrim input).length + 4) PMode.val
              (asciiTrim input) _ _ hP
          obtain ⟨pre, hpre⟩ := hsfx
          -- show the parser's rest is empty
          have hprest : prest = [] := by
            cases hq : prest with
            | nil => rfl
            | cons d ds =>
              exfalso
              have hrev : (asciiTrim input).reverse =
                  prest.reverse ++ (cl :: pre.reverse) := by
                rw [← hpre]
                simp
              have hMrevDW : (input.dropWhile asciiWs).reverse.dropWhile asciiWs =
                  (asciiTrim input).reverse := by
                rw [hMdef]
                simp
              cases hq2 : prest.reverse with
              | nil => rw [hq] at hq2; simp at hq2
              | cons q0 qrest =>
                have hq0ws : asciiWs q0 = true := by
                  have : q0 ∈ prest := by
                    rw [← List.mem_reverse, hq2]
                    exact List.mem_cons_self _ _
                  exact hrestall q0 this
                have hdw : List.dropWhile asciiWs (List.dropWhile asciiWs input).reverse =
                    q0 :: (qrest ++ cl :: pre.reverse) := by
                  rw [hMrevDW, hrev, hq2]
                  simp
                have : asciiWs q0 = false := dropWhile_head_false hdw
                rw [hq0ws] at this
                exact Bool.noConfusion this
          subst hprest
          -- decompositions of the trimmed content
          have hMrev : (asciiTrim input).reverse = cl :: pre.reverse := by
            rw [← hpre]
            simp
          -- head is not Unicode whitespace either
          have hc0go : goIsSpace c0 = false := by
            have hP2 : parseJ (2 * (asciiTrim input).length + 4) PMode.val
                (c0 :: M2) = some (PRes.v v0, []) := by
              rw [← hM]
              exact hP
            exact parseJ_val_head _ _ _ _ hP2
          -- the code's Unicode trim equals the ASCII trim here
          have hAgo : ∀ a ∈ input.takeWhile asciiWs, goIsSpace a = true := by
            intro a haw
            exact asciiWs_goIsSpace a (List.mem_takeWhile_imp haw)
          have hEgo : ∀ a ∈ ((input.dropWhile asciiWs).reverse.takeWhile asciiWs).reverse.reverse,
              goIsSpace a = true := by
            intro a haw
            exact asciiWs_goIsSpace a (hEws a (by simpa using haw))
          have hGT : goTrimSpace input = asciiTrim input := by
            simp only [goTrimSpace]
            conv_lhs => rw [hinput]
            rw [dropWhile_append_all _ _ hAgo]
            have hd2 : List.dropWhile goIsSpace (asciiTrim input ++
                ((input.dropWhile asciiWs).reverse.takeWhile asciiWs).reverse) =
                asciiTrim input ++
                ((input.dropWhile asciiWs).reverse.takeWhile asciiWs).reverse := by
              rw [hM]
              simp only [List.cons_append]
              rw [List.dropWhile_cons_of_neg (by simp [hc0go])]
            rw [hd2]
            rw [List.reverse_append]
            rw [dropWhile_append_all _ _ hEgo]
            have hd3 : List.dropWhile goIsSpace (asciiTrim input).reverse =
                (asciiTrim input).reverse := by
              rw [hMrev]
              rw [List.dropWhile_cons_of_neg (by simp [hcl])]
            rw [hd3]
            rw [List.reverse_reverse]
          -- the index is the leading whitespace length
          have hIdx : strIndexOf input (asciiTrim input) =
              (input.takeWhile asciiWs).length := by
            have hpref2 : (c0 :: M2).isPrefixOf (asciiTrim input ++
                ((input.dropWhile asciiWs).reverse.takeWhile asciiWs).reverse) = true := by
              rw [hM]
              rw [List.isPrefixOf_iff_prefix]
              exact List.prefix_append _ _
            have key := strIndexOf_ws (input.takeWhile asciiWs)
              (fun a haw => List.mem_takeWhile_imp haw)
              (asciiTrim input ++
                ((input.dropWhile asciiWs).reverse.takeWhile asciiWs).reverse)
              c0 M2 hc0 hpref2
            rw [← hinput] at key
            rw [← hM] at key
            exact key
          -- evaluate ExtractJSON
          simp only [ExtractJSON]
          rw [hGT, hvalid0]
          simp only [if_true]
          rw [hIdx, hM]
        · rw [if_neg hrest] at hvalid
          simp at hvalid

theorem extractJSON_whole_input_witness :
    ExtractJSON "  \x7b\x7d ".data =
      some [⟨asciiTrim "  \x7b\x7d ".data, ("  \x7b\x7d ".data.takeWhile asciiWs).length⟩] :=
  extractJSON_whole_input "  \x7b\x7d ".data (by decide)

end SAP
